import Mathlib

set_option maxRecDepth 8000

/-!
Verification of the fsquiztool retrieval engine.

Shallow embedding of the two core subsystems:
* the lexical search / context expansion over the precomputed chunk corpus
  (`src/src/lib/docs/index.ts`: `loadIndex`, `searchDocs`, `expandHeaderContext`
  and their helpers), and
* the incremental question crawler plus fuzzy matcher of the lookup route
  (`src/unnamed/part_004`: `normalizeText`, `toTokens`, `jaccard`,
  `substringScore`, `scoreMatch`, `getIndexState`, `ensureIndexedUntilEnd`).

Modelling conventions:
* JavaScript strings are modelled as `List Char` (`Str`); the Unicode
  letter/digit character classes (`\p{L}`, `\p{N}`, `\w`, `\s`) are modelled on
  the ASCII fragment, where all inputs relevant to the claims live.
* Numeric scores are modelled as `ℚ`.  All score arithmetic in the source is
  sums/products of small decimal constants and integer-ratio divisions, and all
  claim-relevant comparisons are far from the float rounding error.
* JavaScript `Map` objects are modelled either as insertion-ordered
  association lists (where iteration order matters) or as total functions
  (where only lookup matters).
* The MiniSearch index, the filesystem, `JSON.parse` and the network fetch are
  external collaborators; they enter the embedding as oracle parameters.
* The crawler's wall-clock time budget (checked once before each batch) is
  modelled by a batch-count fuel parameter; async batches are joined before
  processing, exactly as `Promise.all` does in the source.
-/

namespace FsQuizTool

/-- JavaScript strings, modelled as lists of characters. -/
abbrev Str := List Char

/-- Lower-casing, as `String.prototype.toLowerCase` on the ASCII fragment. -/
def strLower (s : Str) : Str := s.map Char.toLower

/-- JS `\s` on the ASCII fragment (space, tab, newline, carriage return). -/
def isWsChar (c : Char) : Bool := c.isWhitespace

/-- Model of `String.prototype.trim`: strip leading and trailing whitespace. -/
def strTrim (s : Str) : Str :=
  ((s.dropWhile isWsChar).reverse.dropWhile isWsChar).reverse

/-- Split into maximal whitespace-free words (accumulator form). -/
def splitWsAux : Str → Str → List Str
  | [], acc => if acc.isEmpty then [] else [acc.reverse]
  | c :: cs, acc =>
    if isWsChar c then
      (if acc.isEmpty then splitWsAux cs [] else acc.reverse :: splitWsAux cs [])
    else splitWsAux cs (c :: acc)

/-- Split a string on runs of whitespace, dropping empty pieces: the token
stream of `s.split(/\s+/)` after trimming. -/
def splitWs (s : Str) : List Str := splitWsAux s []

/-- Model of `text.replace(/\s+/g, " ").trim()`: collapse whitespace runs to single
spaces and trim. -/
def collapseWs (s : Str) : Str := List.intercalate [' '] (splitWs s)

/-- Tests whether `pat` begins `s` (models `String.prototype.startsWith`). -/
def strStarts : Str → Str → Bool
  | _, [] => true
  | [], _ :: _ => false
  | c :: t, d :: p => c = d && strStarts t p

/-- Substring test `hay.includes(pat)` (empty `pat` always matches, as in JS). -/
def containsSub : Str → Str → Bool
  | [], pat => pat.isEmpty
  | h :: t, pat => strStarts (h :: t) pat || containsSub t pat

/-- Index search `hay.indexOf(pat)` as an option (models `-1` by `none`). -/
def indexOfSub : Str → Str → Option Nat
  | [], pat => if pat.isEmpty then some 0 else none
  | h :: t, pat =>
    if strStarts (h :: t) pat then some 0 else (indexOfSub t pat).map (· + 1)

/-- De-duplicate keeping first occurrences (JS `[...new Set(items)]`),
accumulator form. -/
def uniqFirstAux {α : Type} [DecidableEq α] (seen : List α) : List α → List α
  | [] => []
  | a :: l => if a ∈ seen then uniqFirstAux seen l else a :: uniqFirstAux (a :: seen) l

/-- De-duplicate keeping first occurrences (the `uniq` helper of
`src/src/lib/docs/index.ts`). -/
def uniqFirst {α : Type} [DecidableEq α] (l : List α) : List α := uniqFirstAux [] l

/-- Decimal digit string of a natural number (for URL building). -/
def natStr (n : Nat) : Str := Nat.toDigits 10 n

/-- Model of `Math.max` on rationals (kernel-reducible, unlike the lattice `max`). -/
def qmax (a b : ℚ) : ℚ := if a ≤ b then b else a

/-- Model of `Math.min` on integers (kernel-reducible). -/
def intMin (a b : Int) : Int := if a ≤ b then a else b

/-- Model of `Math.max` on integers (kernel-reducible). -/
def intMax (a b : Int) : Int := if a ≤ b then b else a

/-- Model of `Math.min` on naturals (kernel-reducible). -/
def natMin (a b : Nat) : Nat := if a ≤ b then a else b

/-- Stable descending sort by a rational key: the behaviour of the stable JS
`sort((a, b) => key(b) - key(a))`. -/
def sortByKeyDesc {α : Type} (key : α → ℚ) (l : List α) : List α :=
  List.insertionSort (fun a b => key b ≤ key a) l

/-- Stable ascending sort by a rational key (`sort((a, b) => key(a) - key(b))`). -/
def sortByKeyAsc {α : Type} (key : α → ℚ) (l : List α) : List α :=
  List.insertionSort (fun a b => key a ≤ key b) l

/-- Stable ascending sort by a natural-number key (used for chunk order keys). -/
def sortByNatKeyAsc {α : Type} (key : α → Nat) (l : List α) : List α :=
  List.insertionSort (fun a b => key a ≤ key b) l

/-! ## Data model of the corpus bundle (`src/src/lib/docs/types` as used by
`src/src/lib/docs/index.ts` and `src/scripts/build-index.ts`) -/

/-- File kind: `"pdf" | "text"`. -/
inductive DocKind : Type
  | pdf
  | text
deriving DecidableEq, Repr

/-- Drive reference stored on a file record (`drive?: { fileId; webViewLink? }`). -/
structure DriveRef : Type where
  fileId : Str
  webViewLink : Option Str
deriving DecidableEq, Repr

/-- A file record of the corpus bundle. -/
structure FileRec : Type where
  id : Str
  fileName : Str
  kind : DocKind
  year : Option Str
  bytes : Option Nat
  drive : Option DriveRef
deriving DecidableEq, Repr

/-- A corpus chunk (`type Chunk` of `src/scripts/build-index.ts`). -/
structure Chunk : Type where
  chunkId : Str
  fileId : Str
  fileName : Str
  kind : DocKind
  year : Option Str
  page : Option Nat
  startLine : Option Nat
  endLine : Option Nat
  text : Str
deriving DecidableEq, Repr

/-- The immutable corpus bundle (`generatedAt`, `files`, `chunks`); the
serialized MiniSearch structure is consumed by the external MiniSearch
library and enters the model as the search oracle instead. -/
structure IndexBundle : Type where
  generatedAt : Str
  files : List FileRec
  chunks : List Chunk
deriving DecidableEq, Repr

/-- A retrieved chunk: the chunk's fields spread together with `score`,
`excerpt` and `externalUrl` (`RetrievedChunk` of the source). -/
structure RetrievedChunk : Type where
  chunk : Chunk
  score : ℚ
  excerpt : Str
  externalUrl : Option Str
deriving DecidableEq, Repr

/-- Chunk id of a retrieved chunk (the spread `chunkId` field). -/
def RetrievedChunk.chunkId (r : RetrievedChunk) : Str := r.chunk.chunkId

/-- File id of a retrieved chunk (the spread `fileId` field). -/
def RetrievedChunk.fileId (r : RetrievedChunk) : Str := r.chunk.fileId

/-- File name of a retrieved chunk (the spread `fileName` field). -/
def RetrievedChunk.fileName (r : RetrievedChunk) : Str := r.chunk.fileName

/-- Text of a retrieved chunk (the spread `text` field). -/
def RetrievedChunk.text (r : RetrievedChunk) : Str := r.chunk.text

/-! ## Term extraction and excerpts (`extractTerms`, `makeExcerpt`) -/

/-- Characters kept by `/[^\p{L}\p{N}\s_-]+/gu → " "` (ASCII fragment): the
listed classes are letters, digits, whitespace, underscore and hyphen. -/
def isTermChar (c : Char) : Bool :=
  c.isAlpha || c.isDigit || isWsChar c || c = '_' || c = '-'

/-- The stop-word set of `extractTerms`. -/
def stopWords : List Str :=
  ["och", "att", "det", "den", "som", "vad", "hur", "är", "ska", "kan",
   "för", "med", "till", "på", "i", "av", "en", "ett",
   "the", "a", "an", "to", "of", "in", "on", "and", "or", "is", "are",
   "was", "were", "be", "been", "being", "for", "with", "from", "by", "as",
   "at", "it", "its", "this", "that", "these", "those", "what", "how",
   "can", "could", "should", "would", "may", "might", "shall", "must"
  ].map String.data

/-- Model of `extractTerms`: lower-case, strip to letters/digits/underscore/hyphen,
tokenize, drop short and stop-word tokens, de-duplicate, keep first 12. -/
def extractTerms (input : Str) : List Str :=
  let cleaned := splitWs ((strLower input).map (fun c => if isTermChar c then c else ' '))
  (uniqFirst (cleaned.filter (fun t => 2 ≤ t.length && !(t ∈ stopWords)))).take 12

/-- Earliest case-insensitive occurrence of any term of `terms` in `lower`,
with the matching term (the `bestIdx`/`bestTerm` scan of `makeExcerpt`:
strictly earlier occurrences win, first term wins ties). -/
def bestTermIdx (lower : Str) (terms : List Str) : Option (Nat × Str) :=
  terms.foldl
    (fun acc term =>
      match indexOfSub lower (strLower term) with
      | none => acc
      | some idx =>
        match acc with
        | none => some (idx, term)
        | some (bi, bt) => if idx < bi then some (idx, term) else some (bi, bt))
    none

/-- Model of `makeExcerpt(text, terms, maxLen)`: collapse whitespace, locate the
earliest term occurrence and return a window of about `maxLen` characters
centred on it, with `...` truncation markers; with no occurrence, return the
first `maxLen` characters.  `Math.floor` of the possibly negative pad is
`Int.fdiv`; the window bounds are clamped to `[0, hay.length]`. -/
def makeExcerpt (text : Str) (terms : List Str) (maxLen : Nat) : Str :=
  let hay := collapseWs text
  if hay.isEmpty then []
  else
    match bestTermIdx (strLower hay) terms with
    | none => if hay.length ≤ maxLen then hay else hay.take maxLen ++ "...".data
    | some (bestIdx, bestTerm) =>
      let pad : Int := Int.fdiv ((maxLen : Int) - (bestTerm.length : Int)) 2
      let start : Nat := (intMax 0 ((bestIdx : Int) - pad)).toNat
      let stop : Nat := (intMin (hay.length : Int) ((bestIdx : Int) + (bestTerm.length : Int) + pad)).toNat
      let pre := if 0 < start then "...".data else ([] : Str)
      let suf := if stop < hay.length then "...".data else ([] : Str)
      pre ++ ((hay.drop start).take (stop - start)) ++ suf

/-! ## Header classification (`isLikelyHeader`) -/

/-- JS `\w` (word character) on the ASCII fragment. -/
def isWordCharJs (c : Char) : Bool := c.isAlpha || c.isDigit || c = '_'

/-- Tests that `s` starts with `p` followed by a word boundary (`^p\b`). -/
def startsWithWordB (s p : Str) : Bool :=
  strStarts s p &&
    (match s.drop p.length with
     | [] => true
     | d :: _ => !isWordCharJs d)

/-- One scan step of the whole-word search: `w` occurs at the current position
with non-word characters (or ends) on both sides.  `prev` is the character
before the current position. -/
def containsWordAux (w : Str) : Option Char → Str → Bool
  | _, [] => false
  | prev, c :: t =>
    (strStarts (c :: t) w &&
      (match prev with
       | none => true
       | some p => !isWordCharJs p) &&
      (match (c :: t).drop w.length with
       | [] => true
       | d :: _ => !isWordCharJs d))
    || containsWordAux w (some c) t

/-- Case-insensitive whole-word containment (`/\bw\b/i.test(s)` for a word `w`
made of word characters). -/
def containsWordCI (s w : Str) : Bool := containsWordAux (strLower w) none (strLower s)

/-- The structural-keyword alternatives of `isLikelyHeader`. -/
def headerKeywords : List Str :=
  ["chapter", "section", "appendix", "article", "clause", "rule", "rules",
   "definition", "definitions", "scope"].map String.data

/-- Model of `/^[A-Z0-9][A-Z0-9 ._-]{6,}$/`: an all-caps label of length ≥ 7. -/
def isUpperLabel : Str → Bool
  | [] => false
  | c :: t =>
    (c.isUpper || c.isDigit) && 6 ≤ t.length &&
      t.all (fun d => d.isUpper || d.isDigit || d = ' ' || d = '.' || d = '_' || d = '-')

/-- Model of `/^[0-9IVX]+(\.|:)\s+\S+/`: a numbered or roman-numeral heading. -/
def isNumberedHeading (s : Str) : Bool :=
  let cls := fun c => c.isDigit || c = 'I' || c = 'V' || c = 'X'
  let run := s.takeWhile cls
  let rest := s.dropWhile cls
  !run.isEmpty &&
    (match rest with
     | [] => false
     | p :: r2 =>
       (p = '.' || p = ':') &&
         !(r2.takeWhile isWsChar).isEmpty && !(r2.dropWhile isWsChar).isEmpty)

/-- Model of `/^[A-Z][a-z]/`: a title-cased word. -/
def isTitleWord : Str → Bool
  | a :: b :: _ => a.isUpper && b.isLower
  | _ => false

/-- Model of `isLikelyHeader`: trims/collapses the text, rejects empty or long text,
then tests the table-of-contents pattern, the structural keywords, the
all-caps label pattern, the numbered-heading pattern, and the >70%
title-cased-words test (`titleCase / words.length > 0.7` is exact on integers
as `7 * words.length < 10 * titleCase`). -/
def isLikelyHeader (text : Str) : Bool :=
  let trimmed := collapseWs text
  if trimmed.isEmpty then false
  else if 200 < trimmed.length then false
  else if startsWithWordB (strLower trimmed) "table of contents".data
       || startsWithWordB (strLower trimmed) "contents".data then true
  else if headerKeywords.any (containsWordCI trimmed) then true
  else if isUpperLabel trimmed && trimmed.length ≤ 120 then true
  else if isNumberedHeading trimmed then true
  else
    let words := splitWs trimmed
    2 ≤ words.length && 7 * words.length < 10 * (words.filter isTitleWord).length

/-! ## Chunk ordering and deep links (`parseSegmentIndex`, `chunkOrderKey`,
`buildExternalUrl`) -/

/-- Decimal value of a digit run (JS `Number` on the captured digits). -/
def digitsToNat (ds : Str) : Nat :=
  ds.foldl (fun n c => n * 10 + (c.toNat - '0'.toNat)) 0

/-- First match of `/:s(\d+)/`: scan for `:s` followed by at least one digit
and return the value of the maximal digit run. -/
def parseSegmentIndexAux : Str → Option Nat
  | [] => none
  | c :: t =>
    match c, t with
    | ':', 's' :: r =>
      let ds := r.takeWhile Char.isDigit
      if ds.isEmpty then parseSegmentIndexAux t else some (digitsToNat ds)
    | _, _ => parseSegmentIndexAux t

/-- Model of `parseSegmentIndex`: the captured segment number, or 0 with no match. -/
def parseSegmentIndex (chunkId : Str) : Nat := (parseSegmentIndexAux chunkId).getD 0

/-- Model of `chunkOrderKey`: `page*1000 + segment` for pdf chunks, `startLine` for
text chunks (absent values default to 0 via `?? 0`). -/
def chunkOrderKey (c : Chunk) : Nat :=
  match c.kind with
  | .pdf => (c.page.getD 0) * 1000 + parseSegmentIndex c.chunkId
  | .text => c.startLine.getD 0

/-- The `driveByFileId` map: files with a `drive` entry, keyed by file id;
`Map.set` keeps the last record per id. -/
def driveByFileId (files : List FileRec) (id : Str) : Option DriveRef :=
  ((files.filter (fun f => f.drive.isSome)).reverse.find? (fun f => f.id = id)).bind
    (fun f => f.drive)

/-- Model of `buildExternalUrl`: a Google Drive view link, with a page anchor when the
chunk has a truthy page number (`if (chunk.page)` is false for 0). -/
def buildExternalUrl (fileMeta : FileRec) (c : Chunk) (files : List FileRec) : Option Str :=
  match driveByFileId files fileMeta.id with
  | none => none
  | some d =>
    if d.fileId.isEmpty then none
    else
      match c.page with
      | some p =>
        if p ≠ 0 then
          some ("https://drive.google.com/file/d/".data ++ d.fileId
            ++ "/view#page=".data ++ natStr p)
        else some ("https://drive.google.com/file/d/".data ++ d.fileId ++ "/view".data)
      | none => some ("https://drive.google.com/file/d/".data ++ d.fileId ++ "/view".data)

/-! ## Lexical search (`searchDocs`) -/

/-- One MiniSearch result row: a document id (`String(r.id)` is the chunk id)
and a score.  MiniSearch itself is external; a search oracle
`mini : Str → List SearchHit` stands for `mini.search(…, { combineWith: "OR" })`. -/
structure SearchHit : Type where
  id : Str
  score : ℚ
deriving DecidableEq, Repr

/-- The parameters of `searchDocs` (optional fields model the `?` fields). -/
structure SearchParams : Type where
  query : Str
  year : Option Str
  limit : Option Nat
  extraTerms : Option (List Str)
  pdfFileNameAllow : Option (List Str)
  kinds : Option (List DocKind)
deriving Repr

/-- One `scoreByChunkId` update: add a weighted score for an id, keeping the
map's insertion order (`Map.set` keeps the position of an existing key). -/
def addResult (m : List (Str × ℚ)) (id : Str) (s : ℚ) : List (Str × ℚ) :=
  if m.any (fun p => p.1 = id) then
    m.map (fun p => if p.1 = id then (p.1, p.2 + s) else p)
  else m ++ [(id, s)]

/-- The `addResults` helper: fold a weighted hit list into the score map. -/
def addResults (m : List (Str × ℚ)) (hits : List SearchHit) (w : ℚ) : List (Str × ℚ) :=
  hits.foldl (fun acc h => addResult acc h.id (h.score * w)) m

/-- Model of `/^\d+$/.test(term)`. -/
def isAllDigits (t : Str) : Bool := !t.isEmpty && t.all Char.isDigit

/-- One iteration of the keyword-search loop of `searchDocs`: skip terms of
trimmed length < 3 or purely numeric terms, otherwise merge the first 80 hits
of a secondary search at weight 0.55. -/
def secondaryStep (mini : Str → List SearchHit) (acc : List (Str × ℚ)) (t : Str) :
    List (Str × ℚ) :=
  let term := strTrim t
  if term.length < 3 then acc
  else if isAllDigits term then acc
  else addResults acc ((mini term).take 80) (55 / 100)

/-- The `chunksById` map: `Map.set` keeps the last chunk per id. -/
def chunksById (chunks : List Chunk) (id : Str) : Option Chunk :=
  chunks.reverse.find? (fun c => c.chunkId = id)

/-- Truthiness of an optional string field (JS: absent and `""` are falsy). -/
def truthyS : Option Str → Bool
  | some s => !s.isEmpty
  | none => false

/-- Resolve one scored candidate of `searchDocs`: look the id up in
`chunksById`, apply the kind / pdf-file-name / year filters, and attach
score, excerpt and external url; each `continue` of the source loop is
`none`. -/
def resolveCandidate (bundle : IndexBundle) (yearOpt : Option Str)
    (kindAllow : Option (List DocKind)) (pdfAllow : Option (List Str))
    (terms : List Str) (r : Str × ℚ) : Option RetrievedChunk :=
  match chunksById bundle.chunks r.1 with
  | none => none
  | some chunk =>
    if (match kindAllow with
        | some ks => !(chunk.kind ∈ ks)
        | none => false) then none
    else if (chunk.kind = DocKind.pdf &&
        (match pdfAllow with
         | some allow => !(strLower chunk.fileName ∈ allow)
         | none => false)) then none
    else if (chunk.kind = DocKind.pdf && truthyS yearOpt && truthyS chunk.year
        && !(chunk.year.getD [] = yearOpt.getD [])) then none
    else if (chunk.kind = DocKind.pdf && truthyS yearOpt && !truthyS chunk.year) then none
    else
      let fileMeta := bundle.files.find? (fun f => f.id = chunk.fileId)
      let externalUrl :=
        match fileMeta with
        | some fm => buildExternalUrl fm chunk bundle.files
        | none => none
      some { chunk := chunk, score := r.2, excerpt := makeExcerpt chunk.text terms 900,
             externalUrl := externalUrl }

/-- The candidate-resolution loop of `searchDocs` (a loop whose `continue`s
skip entries is a `filterMap` in order). -/
def buildOut (bundle : IndexBundle) (yearOpt : Option Str)
    (kindAllow : Option (List DocKind)) (pdfAllow : Option (List Str))
    (terms : List Str) (rs : List (Str × ℚ)) : List RetrievedChunk :=
  rs.filterMap (resolveCandidate bundle yearOpt kindAllow pdfAllow terms)

/-- The diversity pass of `searchDocs`: walk the sorted candidates, accept at
most 4 chunks per source file name, stop once `limit` results are collected.
`perFile` models the per-file-name count map and `pickedIds` the picked-id
set; both are returned for the backfill pass. -/
def pickFirstPass (limit : Nat) : List RetrievedChunk → List RetrievedChunk →
    (Str → Nat) → (Str → Bool) → List RetrievedChunk × (Str → Bool)
  | [], picked, _, pickedIds => (picked, pickedIds)
  | item :: rest, picked, perFile, pickedIds =>
    let count := perFile item.fileName
    if 4 ≤ count then pickFirstPass limit rest picked perFile pickedIds
    else
      let picked' := picked ++ [item]
      let pickedIds' := fun id => pickedIds id || id = item.chunkId
      let perFile' := fun f => if f = item.fileName then count + 1 else perFile f
      if limit ≤ picked'.length then (picked', pickedIds')
      else pickFirstPass limit rest picked' perFile' pickedIds'

/-- The backfill pass of `searchDocs`: walk the sorted candidates again and
append not-yet-picked chunks regardless of the per-file cap, until `limit`. -/
def backfillPass (limit : Nat) : List RetrievedChunk → List RetrievedChunk →
    (Str → Bool) → List RetrievedChunk
  | [], picked, _ => picked
  | item :: rest, picked, pickedIds =>
    if pickedIds item.chunkId then backfillPass limit rest picked pickedIds
    else
      let picked' := picked ++ [item]
      if limit ≤ picked'.length then picked'
      else backfillPass limit rest picked' (fun id => pickedIds id || id = item.chunkId)

/-- The merged, weighted, filtered and re-sorted candidate list of
`searchDocs` (everything up to and including `out.sort(...)`). -/
def searchOut (bundle : IndexBundle) (mini : Str → List SearchHit)
    (p : SearchParams) : List RetrievedChunk :=
  let query := strTrim p.query
  let yearOpt := p.year.map strTrim
  let terms := uniqFirst ((p.extraTerms.getD []) ++ extractTerms query)
  let pdfAllow :=
    match p.pdfFileNameAllow with
    | some l => if l.isEmpty then none else some (l.map strLower)
    | none => none
  let m0 := addResults [] ((mini query).take 250) 1
  let m1 := terms.foldl (secondaryStep mini) m0
  let results := (sortByKeyDesc Prod.snd m1).take 250
  sortByKeyDesc RetrievedChunk.score
    (buildOut bundle yearOpt p.kinds pdfAllow terms results)

/-- Model of `searchDocs`: the full search pipeline — weighted multi-query scoring,
filtering, excerpting, descending sort, per-file diversity pass and backfill. -/
def searchDocs (bundle : IndexBundle) (mini : Str → List SearchHit)
    (p : SearchParams) : List RetrievedChunk :=
  let out := searchOut bundle mini p
  let limit := p.limit.getD 12
  let fp := pickFirstPass limit out [] (fun _ => 0) (fun _ => false)
  if fp.1.length < limit then backfillPass limit out fp.1 fp.2 else fp.1

/-! ## Context expansion (`expandHeaderContext`) -/

/-- The ordering-sorted chunk list of one file: the `byFileId` bucket (chunks
in bundle order) sorted stably by `chunkOrderKey` (`list.sort((a, b) =>
chunkOrderKey(a) - chunkOrderKey(b))`); a missing bucket is the empty list. -/
def byFileSorted (bundle : IndexBundle) (fid : Str) : List Chunk :=
  sortByNatKeyAsc chunkOrderKey (bundle.chunks.filter (fun c => c.fileId = fid))

/-- The `byFileMeta` map (`Map.set` keeps the last record per id). -/
def byFileMeta (files : List FileRec) (id : Str) : Option FileRec :=
  files.reverse.find? (fun f => f.id = id)

/-- The mutable state of the expansion scan: the `existingIds` and `pinnedIds`
sets, the `extras` list and the global `extraCount`. -/
structure ExtrasState : Type where
  existingIds : Str → Bool
  pinnedIds : Str → Bool
  extras : List RetrievedChunk
  extraCount : Nat

/-- The inner walk of `expandHeaderContext`: follow one header's file forward,
attaching not-yet-included non-empty chunks as pinned extras with score
`max(0.1, base.score * 0.7)`, stopping at the per-header cap, the global cap,
the per-header character budget (checked after adding) or a following header
chunk. -/
def expandWalk (bundle : IndexBundle) (maxPerHeader maxExtraTotal maxExtraChars : Nat)
    (base : RetrievedChunk) (terms : List Str) :
    List Chunk → ExtrasState → Nat → Nat → ExtrasState
  | [], st, _, _ => st
  | c :: rest, st, added, extraChars =>
    if st.existingIds c.chunkId then
      expandWalk bundle maxPerHeader maxExtraTotal maxExtraChars base terms rest st added extraChars
    else
      let text := strTrim c.text
      if text.isEmpty then
        expandWalk bundle maxPerHeader maxExtraTotal maxExtraChars base terms rest st added extraChars
      else if maxPerHeader ≤ added || maxExtraTotal ≤ st.extraCount then st
      else
        let extraChars' := extraChars + text.length
        let externalUrl :=
          match byFileMeta bundle.files c.fileId with
          | some fm => buildExternalUrl fm c bundle.files
          | none => none
        let st' : ExtrasState :=
          { existingIds := fun id => st.existingIds id || id = c.chunkId
            pinnedIds := fun id => st.pinnedIds id || id = c.chunkId
            extras := st.extras ++
              [{ chunk := c, score := qmax (1 / 10) (base.score * (7 / 10)),
                 excerpt := makeExcerpt text terms 900, externalUrl := externalUrl }]
            extraCount := st.extraCount + 1 }
        let added' := added + 1
        if maxExtraChars ≤ extraChars' then st'
        else if isLikelyHeader text && 0 < added' then st'
        else expandWalk bundle maxPerHeader maxExtraTotal maxExtraChars base terms rest st' added' extraChars'

/-- The outer loop of `expandHeaderContext`: for each header-classified input
chunk (skipping texts whose trimmed length exceeds 260, stopping at the
global extras cap), pin it and walk its file forward from its position. -/
def collectExtras (bundle : IndexBundle) (maxPerHeader maxExtraTotal maxExtraChars : Nat) :
    List RetrievedChunk → ExtrasState → ExtrasState
  | [], st => st
  | base :: rest, st =>
    if !isLikelyHeader base.text then
      collectExtras bundle maxPerHeader maxExtraTotal maxExtraChars rest st
    else if 260 < (strTrim base.text).length then
      collectExtras bundle maxPerHeader maxExtraTotal maxExtraChars rest st
    else if maxExtraTotal ≤ st.extraCount then st
    else
      let st1 : ExtrasState := { st with pinnedIds := fun id => st.pinnedIds id || id = base.chunkId }
      let list := byFileSorted bundle base.fileId
      match list.findIdx? (fun c => c.chunkId = base.chunkId) with
      | none => collectExtras bundle maxPerHeader maxExtraTotal maxExtraChars rest st1
      | some idx =>
        let st2 := expandWalk bundle maxPerHeader maxExtraTotal maxExtraChars base
          (extractTerms base.text) (list.drop (idx + 1)) st1 0 0
        collectExtras bundle maxPerHeader maxExtraTotal maxExtraChars rest st2

/-- The initial expansion state: `existingIds` holds the input ids, nothing is
pinned, no extras. -/
def initialExpandState (retrieved : List RetrievedChunk) : ExtrasState :=
  { existingIds := fun id => retrieved.any (fun r => r.chunkId = id)
    pinnedIds := fun _ => false
    extras := []
    extraCount := 0 }

/-- The finished expansion state of `expandHeaderContext` on a given input. -/
def expandState (bundle : IndexBundle) (maxPerHeader maxExtraTotal maxExtraChars : Nat)
    (retrieved : List RetrievedChunk) : ExtrasState :=
  collectExtras bundle maxPerHeader maxExtraTotal maxExtraChars retrieved
    (initialExpandState retrieved)

/-- One `Map.set` on the insertion-ordered `byId` association list: an
existing key keeps its position and takes the new value, a new key is
appended. -/
def mapUpsert (l : List RetrievedChunk) (x : RetrievedChunk) : List RetrievedChunk :=
  if l.any (fun e => e.chunkId = x.chunkId) then
    l.map (fun e => if e.chunkId = x.chunkId then x else e)
  else l ++ [x]

/-- Model of `new Map(merged.map(m => [m.chunkId, m]))` as an insertion-ordered list. -/
def mapInsertAll (entries : List RetrievedChunk) : List RetrievedChunk :=
  entries.foldl mapUpsert []

/-- The eviction loop: delete the ids of the lowest-scored non-pinned
candidates from `byId` until `toDrop` deletions have happened or the
candidates run out. -/
def evictLoop : List RetrievedChunk → Nat → List RetrievedChunk → List RetrievedChunk
  | [], _, cur => cur
  | c :: rest, toDrop, cur =>
    if toDrop = 0 then cur
    else evictLoop rest (toDrop - 1) (cur.filter (fun m => !(m.chunkId = c.chunkId)))

/-- Model of `expandHeaderContext`: collect pinned extras under the headers of the
input, return the input unchanged if none were produced, otherwise merge and
— when the merged list exceeds `maxTotal` — evict the lowest-scored
non-pinned entries. -/
def expandHeaderContext (bundle : IndexBundle) (retrieved : List RetrievedChunk)
    (maxTotal maxPerHeader maxExtraTotal maxExtraChars : Nat) : List RetrievedChunk :=
  if retrieved.isEmpty then retrieved
  else
    let st := expandState bundle maxPerHeader maxExtraTotal maxExtraChars retrieved
    if st.extras.isEmpty then retrieved
    else
      let merged := retrieved ++ st.extras
      if merged.length ≤ maxTotal then merged
      else
        let byId := mapInsertAll merged
        let dropCandidates :=
          sortByKeyAsc RetrievedChunk.score
            (merged.filter (fun m => !(st.pinnedIds m.chunkId)))
        evictLoop dropCandidates (merged.length - maxTotal) byId

/-! ## Corpus loading (`loadIndex` of `src/src/lib/docs/index.ts`)

The filesystem enters as `fsFile : Option (Nat × Str)` — `none` models ENOENT
from both `statSync` and `readFile` (one consistent snapshot), `some (mtimeMs,
raw)` the bundle file's change token and contents.  `JSON.parse` enters as the
oracle `parse`; a parse exception surfaces as `LoadError.parseError` (the
source rethrows the parse error as-is — there is no dedicated error class, but
it is distinct from `MissingIndexError`). -/

/-- The ways `loadIndex` can fail: `missingIndex` models the
`MissingIndexError` class thrown on ENOENT, `parseError` the exception
escaping `JSON.parse`. -/
inductive LoadError : Type
  | missingIndex (indexPath : Str)
  | parseError (msg : Str)
deriving DecidableEq, Repr

/-- The cached loaded index (`LoadedIndex` without the derived MiniSearch and
map views, which are functions of `bundle`). -/
structure LoadedIndex : Type where
  bundle : IndexBundle
  indexPath : Str
  mtimeMs : Nat
deriving DecidableEq, Repr

/-- Model of `loadIndex`: stat the bundle (ENOENT → `MissingIndexError`); return the
process-wide cache when path and mtime match; otherwise read and parse,
caching the fresh result.  Returns the outcome together with the cache after
the call (`globalThis.__fredquiz_index`). -/
def loadIndex (indexPath : Str) (fsFile : Option (Nat × Str))
    (parse : Str → Except Str IndexBundle) (cache : Option LoadedIndex) :
    Except LoadError LoadedIndex × Option LoadedIndex :=
  match fsFile with
  | none => (Except.error (LoadError.missingIndex indexPath), cache)
  | some (mtimeMs, raw) =>
    match cache with
    | some c =>
      if c.indexPath = indexPath ∧ c.mtimeMs = mtimeMs then (Except.ok c, some c)
      else
        match parse raw with
        | Except.error m => (Except.error (LoadError.parseError m), cache)
        | Except.ok bundle =>
          let l : LoadedIndex := ⟨bundle, indexPath, mtimeMs⟩
          (Except.ok l, some l)
    | none =>
      match parse raw with
      | Except.error m => (Except.error (LoadError.parseError m), cache)
      | Except.ok bundle =>
        let l : LoadedIndex := ⟨bundle, indexPath, mtimeMs⟩
        (Except.ok l, some l)

/-- A `searchDocs` request as the route sees it: `loadIndex` (with the shared
cache) followed by the pure search; returns the cache after the call and the
outcome. -/
def searchDocsCall (indexPath : Str) (fsFile : Option (Nat × Str))
    (parse : Str → Except Str IndexBundle) (mini : Str → List SearchHit)
    (p : SearchParams) (cache : Option LoadedIndex) :
    Option LoadedIndex × Except LoadError (List RetrievedChunk) :=
  match loadIndex indexPath fsFile parse cache with
  | (Except.error e, c') => (c', Except.error e)
  | (Except.ok l, c') => (c', Except.ok (searchDocs l.bundle mini p))

/-- An `expandHeaderContext` request: `loadIndex` followed by the pure
expansion. -/
def expandCall (indexPath : Str) (fsFile : Option (Nat × Str))
    (parse : Str → Except Str IndexBundle) (retrieved : List RetrievedChunk)
    (maxTotal maxPerHeader maxExtraTotal maxExtraChars : Nat)
    (cache : Option LoadedIndex) :
    Option LoadedIndex × Except LoadError (List RetrievedChunk) :=
  match loadIndex indexPath fsFile parse cache with
  | (Except.error e, c') => (c', Except.error e)
  | (Except.ok l, c') =>
    (c', Except.ok (expandHeaderContext l.bundle retrieved maxTotal maxPerHeader
      maxExtraTotal maxExtraChars))

/-! ## Fuzzy matching (`src/unnamed/part_004`) -/

/-- An indexed question of the crawl cache. -/
structure IndexedQuestion : Type where
  id : Int
  text : Str
  normalized : Str
  tokens : List Str
  imageUrls : List Str
deriving DecidableEq, Repr

/-- Replace every two-character sequence `\` + `c2` by a space
(`input.replace(/\\n/g, " ")` and friends: a literal backslash escape in the
stored text, not a control character). -/
def replaceEsc (c2 : Char) : Str → Str
  | [] => []
  | [c] => [c]
  | c :: d :: r2 =>
    if c = '\\' && d = c2 then ' ' :: replaceEsc c2 r2
    else c :: replaceEsc c2 (d :: r2)

/-- JS `[^\p{L}\p{N}]` complement on the ASCII fragment. -/
def isAlnumChar (c : Char) : Bool := c.isAlpha || c.isDigit

/-- Model of `normalizeText`: unescape literal `\n`/`\r`/`\t`, lower-case, straighten
curly apostrophes, replace non-letter/digit runs by spaces, collapse
whitespace, trim. -/
def normalizeText (input : Str) : Str :=
  let s1 := replaceEsc 'n' input
  let s2 := replaceEsc 'r' s1
  let s3 := replaceEsc 't' s2
  let s4 := strLower s3
  let s5 := s4.map (fun c => if c = '‘' || c = '’' then '\'' else c)
  let s6 := s5.map (fun c => if isAlnumChar c then c else ' ')
  collapseWs s6

/-- Model of `toTokens`: split the normalized text on spaces, keep tokens of length
≥ 2, as a set (first-occurrence order, as a JS `Set` iterates). -/
def toTokens (normalized : Str) : List Str :=
  uniqFirst ((splitWs normalized).filter (fun t => !(t.length ≤ 1)))

/-- Model of `for (const t of a) if (b.has(t)) inter += 1`. -/
def interCount (a b : List Str) : Nat := (a.filter (fun t => t ∈ b)).length

/-- Model of `jaccard`: intersection over union of the token sets (token lists are
duplicate-free, so list length is set size). -/
def jaccard (a b : List Str) : ℚ :=
  if a.length = 0 ∨ b.length = 0 then 0
  else
    let inter := interCount a b
    let union := a.length + b.length - inter
    if 0 < union then (inter : ℚ) / (union : ℚ) else 0

/-- Model of `substringScore`: 1 for equal non-empty strings, 0.85 for one containing
the other when both have length ≥ 4, else 0. -/
def substringScore (a b : Str) : ℚ :=
  if a.isEmpty || b.isEmpty then 0
  else if a = b then 1
  else if a.length < 4 ∨ b.length < 4 then 0
  else if containsSub a b || containsSub b a then 85 / 100
  else 0

/-- Model of `scoreMatch`: 1 for equal normalized texts, 0.95 when the shorter text
(length ≥ 20) is a substring of the longer, otherwise
`max(0.3·jaccard + 0.7·overlapCoefficient, substringScore)`. -/
def scoreMatch (query candidate : IndexedQuestion) : ℚ :=
  if query.normalized.length = 0 ∨ candidate.normalized.length = 0 then 0
  else if query.normalized = candidate.normalized then 1
  else
    let longer := if candidate.normalized.length ≤ query.normalized.length
      then query.normalized else candidate.normalized
    let shorter := if candidate.normalized.length ≤ query.normalized.length
      then candidate.normalized else query.normalized
    if 20 ≤ shorter.length ∧ containsSub longer shorter then 95 / 100
    else
      let jac := jaccard query.tokens candidate.tokens
      let overlap : ℚ :=
        if 0 < natMin query.tokens.length candidate.tokens.length then
          (interCount query.tokens candidate.tokens : ℚ) /
            (natMin query.tokens.length candidate.tokens.length : ℚ)
        else 0
      let sub := substringScore query.normalized candidate.normalized
      qmax (jac * (3 / 10) + overlap * (7 / 10)) sub

/-- Build an `IndexedQuestion` from raw text the way the route builds both its
query object and each crawled entry: normalize, then tokenize. -/
def mkIndexed (id : Int) (text : Str) : IndexedQuestion :=
  { id := id, text := text, normalized := normalizeText text,
    tokens := toTokens (normalizeText text), imageUrls := [] }

/-- The matching step of the lookup route: score every indexed item against
the query, keep scores ≥ `threshold`, sort descending (stable) and take the
first `topN`.  The route instantiates `threshold = 0.4` and `topN = 1`. -/
def matchCandidates (query : IndexedQuestion) (items : List IndexedQuestion)
    (threshold : ℚ) (topN : Nat) : List (IndexedQuestion × ℚ) :=
  (sortByKeyDesc Prod.snd
    ((items.map (fun q => (q, scoreMatch query q))).filter
      (fun x => threshold ≤ x.2))).take topN

/-! ## The incremental crawler (`getIndexState`, `ensureIndexedUntilEnd`)

`fetchQuestionById` performs a network fetch: a 404 yields `"not_found"`, any
other non-ok status throws (`FS-Quiz request failed (status)`), an ok response
is parsed into an `IndexedQuestion`.  The network and response parsing enter
the model as the oracle `fetchQ : Nat → FetchOutcome`.  The `Promise.all`
batch join means every id of a batch is fetched (probed) before any result is
processed, and one rejection fails the whole batch; the `probed` field of
`CrawlRun` records exactly the ids handed to the fetch oracle. -/

/-- Outcome of `fetchQuestionById` for one id. -/
inductive FetchOutcome : Type
  | found (q : IndexedQuestion)
  | notFound
  | fetchError (msg : Str)
deriving DecidableEq, Repr

/-- Is this outcome a thrown fetch error? -/
def FetchOutcome.isError : FetchOutcome → Bool
  | .fetchError _ => true
  | _ => false

/-- The process-wide crawl state (`FsQuizIndexState`). -/
structure FsQuizIndexState : Type where
  complete : Bool
  nextId : Nat
  notFoundStreak : Nat
  items : List IndexedQuestion
deriving DecidableEq, Repr

/-- The freshly initialised crawl state (ids start at 1). -/
def freshIndexState : FsQuizIndexState :=
  { complete := false, nextId := 1, notFoundStreak := 0, items := [] }

/-- Model of `getIndexState`: create the state on first use; reset a state that was
marked complete with zero indexed items (recovery from a corrupted terminal
state); sanitize a cursor below 1.  The `notFoundStreak` type migration of
the source is vacuous in the typed model. -/
def getIndexState : Option FsQuizIndexState → FsQuizIndexState
  | none => freshIndexState
  | some existing =>
    if existing.complete = true ∧ existing.items = [] then freshIndexState
    else if existing.nextId < 1 then { existing with nextId := 1 }
    else existing

/-- Model of `maxConsecutiveNotFound` of `ensureIndexedUntilEnd`. -/
def maxConsecutiveNotFound : Nat := 4

/-- Model of `minIndexedBeforeStop` of `ensureIndexedUntilEnd`. -/
def minIndexedBeforeStop : Nat := 200

/-- Model of `batchSize` of `ensureIndexedUntilEnd`. -/
def crawlBatchSize : Nat := 8

/-- The in-order processing of one batch's fetch results: a `not_found`
increments the streak and — once the streak reaches 4 with at least 200 items
indexed — latches `complete` and stops processing the remaining results; a
success resets the streak and appends the entry.  Returns the state and the
count of newly indexed entries. -/
def processResults : FsQuizIndexState → List (Nat × FetchOutcome) → Nat →
    FsQuizIndexState × Nat
  | st, [], newly => (st, newly)
  | st, (_, r) :: rest, newly =>
    match r with
    | .notFound =>
      let st' := { st with notFoundStreak := st.notFoundStreak + 1 }
      if maxConsecutiveNotFound ≤ st'.notFoundStreak ∧
          minIndexedBeforeStop ≤ st'.items.length then
        ({ st' with complete := true }, newly)
      else processResults st' rest newly
    | .found q =>
      processResults { st with notFoundStreak := 0, items := st.items ++ [q] } rest newly.succ
    | .fetchError _ => (st, newly)

/-- One crawl batch: take the 8 ids at the cursor, advance the cursor by 8
immediately, fetch all 8 concurrently (`Promise.all`), then either fail the
call (some fetch rejected — no result of the batch is processed) or process
the results in order.  Returns (state, newly indexed, probed ids, error). -/
def runBatch (fetchQ : Nat → FetchOutcome) (st : FsQuizIndexState) :
    FsQuizIndexState × Nat × List Nat × Option Str :=
  let startId := st.nextId
  let ids := (List.range crawlBatchSize).map (fun i => startId + i)
  let st1 := { st with nextId := st.nextId + crawlBatchSize }
  let results := ids.map fetchQ
  if results.any FetchOutcome.isError then
    let msg := match (results.find? FetchOutcome.isError) with
      | some (.fetchError m) => m
      | _ => []
    (st1, 0, ids, some msg)
  else
    let pr := processResults st1 (ids.zip results) 0
    (pr.1, pr.2, ids, none)

/-- The observable result of one `ensureIndexedUntilEnd` call: the shared
state after the call (retained even when the call throws), the newly-indexed
count, the ghost list of probed ids, and the propagated fetch error if the
call threw. -/
structure CrawlRun : Type where
  state : FsQuizIndexState
  newlyIndexed : Nat
  probed : List Nat
  err : Option Str
deriving Repr

/-- The crawl loop: while not complete and fuel (the per-batch wall-clock
budget check) remains, run a batch; a batch error aborts the call with the
state retained; a latched `complete` stops the loop. -/
def crawlLoop (fetchQ : Nat → FetchOutcome) : Nat → FsQuizIndexState → Nat →
    List Nat → CrawlRun
  | 0, st, newly, probed => ⟨st, newly, probed, none⟩
  | Nat.succ fuel, st, newly, probed =>
    if st.complete then ⟨st, newly, probed, none⟩
    else
      let b := runBatch fetchQ st
      match b.2.2.2 with
      | some e => ⟨b.1, newly, probed ++ b.2.2.1, some e⟩
      | none =>
        if b.1.complete then ⟨b.1, newly + b.2.1, probed ++ b.2.2.1, none⟩
        else crawlLoop fetchQ fuel b.1 (newly + b.2.1) (probed ++ b.2.2.1)

/-- Model of `ensureIndexedUntilEnd`: resolve the shared state via `getIndexState`,
return immediately when already complete, otherwise crawl batches within the
fuel budget. -/
def ensureIndexedUntilEnd (fetchQ : Nat → FetchOutcome)
    (prev : Option FsQuizIndexState) (fuel : Nat) : CrawlRun :=
  let state := getIndexState prev
  if state.complete then ⟨state, 0, [], none⟩
  else crawlLoop fetchQ fuel state 0 []

/-! ## Vocabulary for the statements -/

/-- The chunk ids of a retrieved list. -/
def idsOf (l : List RetrievedChunk) : List Str := l.map RetrievedChunk.chunkId

/-- Sorted by descending score (the order `sort((a, b) => b.score - a.score)`
establishes). -/
def SortedByScoreDesc (l : List RetrievedChunk) : Prop :=
  List.Sorted (fun a b : RetrievedChunk => b.score ≤ a.score) l

/-- Number of entries of a retrieved list coming from the given file name. -/
def countFile (f : Str) (l : List RetrievedChunk) : Nat :=
  l.countP (fun x => decide (x.fileName = f))

/-- The first-pass (diversity-capped) pick of `searchDocs`, as a function of
the same inputs. -/
def searchFirstPass (bundle : IndexBundle) (mini : Str → List SearchHit)
    (p : SearchParams) : List RetrievedChunk :=
  (pickFirstPass (p.limit.getD 12) (searchOut bundle mini p) [] (fun _ => 0) (fun _ => false)).1

/-! ## Concrete inputs for the claim-specific counterexamples and witnesses -/

/-- A text chunk with the given id, file name, file id and start line. -/
def mkTextChunk (cid fn fid : Str) (line : Nat) : Chunk :=
  { chunkId := cid, fileId := fid, fileName := fn, kind := DocKind.text,
    year := none, page := none, startLine := some line, endLine := none,
    text := "t".data }

/-- A text file record with the given id and name. -/
def mkTextFile (id fn : Str) : FileRec :=
  { id := id, fileName := fn, kind := DocKind.text, year := none,
    bytes := none, drive := none }

/-- Bundle for the C1 scenario: five chunks of file `A`, one chunk of file
`B`. -/
def c1Bundle : IndexBundle :=
  { generatedAt := []
    files := [mkTextFile "fA".data "A".data, mkTextFile "fB".data "B".data]
    chunks := [mkTextChunk "a1".data "A".data "fA".data 1,
               mkTextChunk "a2".data "A".data "fA".data 2,
               mkTextChunk "a3".data "A".data "fA".data 3,
               mkTextChunk "a4".data "A".data "fA".data 4,
               mkTextChunk "a5".data "A".data "fA".data 5,
               mkTextChunk "b1".data "B".data "fB".data 1] }

/-- Search oracle for the C1 scenario: the query `qq` scores file `A`'s five
chunks 10…6 and file `B`'s chunk 1. -/
def c1Mini : Str → List SearchHit := fun q =>
  if q = "qq".data then
    [⟨"a1".data, 10⟩, ⟨"a2".data, 9⟩, ⟨"a3".data, 8⟩,
     ⟨"a4".data, 7⟩, ⟨"a5".data, 6⟩, ⟨"b1".data, 1⟩]
  else []

/-- Parameters for the C1 scenario: query `qq`, limit 6. -/
def c1Params : SearchParams :=
  { query := "qq".data, year := none, limit := some 6, extraTerms := none,
    pdfFileNameAllow := none, kinds := none }

/-- A plain (non-header) retrieved chunk used in the C2 scenario. -/
def c2Item (cid : Str) (sc : ℚ) : RetrievedChunk :=
  { chunk := { chunkId := cid, fileId := "f".data, fileName := "F".data,
               kind := DocKind.text, year := none, page := none,
               startLine := some 1, endLine := none,
               text := "plain body text here".data }
    score := sc, excerpt := [], externalUrl := none }

/-- An empty bundle (no files, no chunks). -/
def emptyBundle : IndexBundle := { generatedAt := [], files := [], chunks := [] }

/-- C2 input: three distinct plain chunks, exceeding `maxTotal = 2`. -/
def c2Input : List RetrievedChunk :=
  [c2Item "x1".data 3, c2Item "x2".data 2, c2Item "x3".data 1]

/-- A crawl state with 200 indexed entries, cursor 1, streak 0 (C3). -/
def c3State : FsQuizIndexState :=
  { complete := false, nextId := 1, notFoundStreak := 0,
    items := List.replicate 200 (mkIndexed 0 "q".data) }

/-- A crawl state with 150 indexed entries and cursor 101 (C4). -/
def c4State : FsQuizIndexState :=
  { complete := false, nextId := 101, notFoundStreak := 0,
    items := List.replicate 150 (mkIndexed 0 "q".data) }

/-- A crawl state with one indexed entry and cursor 11 (C7). -/
def c7State : FsQuizIndexState :=
  { complete := false, nextId := 11, notFoundStreak := 0,
    items := [mkIndexed 1 "first".data] }

/-- Fetch oracle for the C7 witness: id 13 fails with a transport error,
everything else succeeds. -/
def c7Fetch : Nat → FetchOutcome := fun i =>
  if i = 13 then FetchOutcome.fetchError "FS-Quiz request failed (500).".data
  else FetchOutcome.found (mkIndexed (Int.ofNat i) "x".data)

/-- A crawl state with one indexed entry and cursor 21 (C9). -/
def c9State : FsQuizIndexState :=
  { complete := false, nextId := 21, notFoundStreak := 0,
    items := [mkIndexed 2 "kept".data] }

/-- Fetch oracle for the C9 witness: id 22 fails, its batch-mates succeed. -/
def c9Fetch : Nat → FetchOutcome := fun i =>
  if i = 22 then FetchOutcome.fetchError "FS-Quiz request failed (502).".data
  else FetchOutcome.found (mkIndexed (Int.ofNat i) "y".data)

/-- The C5 query text. -/
def c5Query : IndexedQuestion := mkIndexed (-1) "describe the penalty for a spin".data

/-- The C5 candidate text. -/
def c5Candidate : IndexedQuestion :=
  mkIndexed 7 "what is the penalty for a spin during dynamic events".data

/-- A non-header retrieved chunk with duplicated id for the C10 scenario. -/
def c10Dup : RetrievedChunk :=
  { chunk := { chunkId := "d1".data, fileId := "f".data, fileName := "F".data,
               kind := DocKind.text, year := none, page := none,
               startLine := some 1, endLine := none,
               text := "plain body text here".data }
    score := 1, excerpt := [], externalUrl := none }

/-! # Proofs -/

theorem sorted_sortByKeyDesc {α : Type} (key : α → ℚ) (l : List α) :
    List.Sorted (fun a b => key b ≤ key a) (sortByKeyDesc key l) := by
  haveI : IsTotal α (fun a b => key b ≤ key a) := ⟨fun a b => le_total (key b) (key a)⟩
  haveI : IsTrans α (fun a b => key b ≤ key a) :=
    ⟨fun _ _ _ h1 h2 => le_trans h2 h1⟩
  exact List.sorted_insertionSort _ l

theorem perm_sortByKeyDesc {α : Type} (key : α → ℚ) (l : List α) :
    (sortByKeyDesc key l).Perm l :=
  List.perm_insertionSort _ l

theorem perm_sortByKeyAsc {α : Type} (key : α → ℚ) (l : List α) :
    (sortByKeyAsc key l).Perm l :=
  List.perm_insertionSort _ l

/-! ## C5 — fuzzy matching of the spin-penalty query -/

theorem c5_score_eval : scoreMatch c5Query c5Candidate = 17 / 25 := by
  with_unfolding_all decide

/-- C5: counterexample.  For the query "describe the penalty for a spin"
against the candidate "what is the penalty for a spin during dynamic events",
the claimed bound score ≥ 0.85 is false: neither normalized text contains the
other, so the substring rules do not fire and the blended token score is
0.3·(4/10) + 0.7·(4/5) = 0.68 < 0.85. -/
theorem c5_counterexample : ¬(85 / 100 ≤ scoreMatch c5Query c5Candidate) := by
  rw [c5_score_eval]; norm_num

/-- C5 (amended): for that query/candidate pair the fuzzy score is exactly
0.68 (= 17/25), and the candidate is returned whenever the threshold is at
most 0.68 — in particular at the route's threshold 0.4. -/
theorem c5_amended (t : ℚ) (ht : t ≤ 17 / 25) :
    scoreMatch c5Query c5Candidate = 17 / 25
    ∧ (matchCandidates c5Query [c5Candidate] t 1).map (fun x => x.1.id) = [7] := by
  refine ⟨c5_score_eval, ?_⟩
  unfold matchCandidates
  simp only [List.map, c5_score_eval]
  rw [List.filter_cons]
  simp only [decide_eq_true ht, if_pos]
  simp [sortByKeyDesc, List.insertionSort, c5Candidate, mkIndexed]

/-- C5 witness: the amended theorem applied at the route's threshold 0.4. -/
theorem c5_witness :
    (2 : ℚ) / 5 ≤ 17 / 25
    ∧ (matchCandidates c5Query [c5Candidate] (2 / 5) 1).map (fun x => x.1.id) = [7] :=
  ⟨by norm_num, (c5_amended (2 / 5) (by norm_num)).2⟩

/-! ## C6 — corpus load error classification -/

/-- C6: `loadIndex` fails with `MissingIndexError` exactly when the bundle
file does not exist; when the bundle exists, no valid cache matches and the
contents do not parse, it fails with the (distinct) parse error. -/
theorem loadIndex_error_classification (indexPath : Str) (fsFile : Option (Nat × Str))
    (parse : Str → Except Str IndexBundle) (cache : Option LoadedIndex) :
    ((loadIndex indexPath fsFile parse cache).1
        = Except.error (LoadError.missingIndex indexPath) ↔ fsFile = none)
    ∧ (∀ mt raw m, fsFile = some (mt, raw) → parse raw = Except.error m →
        (∀ c, cache = some c → ¬(c.indexPath = indexPath ∧ c.mtimeMs = mt)) →
        (loadIndex indexPath fsFile parse cache).1
          = Except.error (LoadError.parseError m))
    ∧ (∀ pth m, LoadError.missingIndex pth ≠ LoadError.parseError m) := by
  refine ⟨⟨?_, ?_⟩, ?_, ?_⟩
  · intro h
    cases fsFile with
    | none => rfl
    | some pr =>
      obtain ⟨mt, raw⟩ := pr
      exfalso
      cases cache with
      | none =>
        cases hp : parse raw <;> simp [loadIndex, hp] at h
      | some c =>
        by_cases hc : c.indexPath = indexPath ∧ c.mtimeMs = mt
        · simp [loadIndex, hc] at h
        · cases hp : parse raw <;> simp [loadIndex, hc, hp] at h
  · rintro rfl
    rfl
  · rintro mt raw m rfl hp hmiss
    cases cache with
    | none => simp [loadIndex, hp]
    | some c =>
      have hc : ¬(c.indexPath = indexPath ∧ c.mtimeMs = mt) := hmiss c rfl
      simp [loadIndex, hc, hp]
  · intro pth m h
    cases h

/-- C6 witness: a missing bundle yields `MissingIndexError`; an existing but
unparsable bundle (with an empty cache) yields the parse error. -/
theorem loadIndex_error_classification_witness :
    (loadIndex "p".data none (fun _ => Except.error "bad".data) none).1
      = Except.error (LoadError.missingIndex "p".data)
    ∧ (loadIndex "p".data (some (5, "raw".data)) (fun _ => Except.error "bad".data) none).1
      = Except.error (LoadError.parseError "bad".data) := by
  constructor
  · exact (loadIndex_error_classification "p".data none
      (fun _ => Except.error "bad".data) none).1.mpr rfl
  · exact (loadIndex_error_classification "p".data (some (5, "raw".data))
      (fun _ => Except.error "bad".data) none).2.1 5 "raw".data "bad".data rfl rfl
      (by intro c hc; cases hc)

/-! ## C8 — determinism of search and expand across repeated calls -/

theorem loadIndex_idem (indexPath : Str) (fsFile : Option (Nat × Str))
    (parse : Str → Except Str IndexBundle) (cache : Option LoadedIndex) :
    loadIndex indexPath fsFile parse (loadIndex indexPath fsFile parse cache).2
      = loadIndex indexPath fsFile parse cache := by
  cases fsFile with
  | none => rfl
  | some pr =>
    obtain ⟨mt, raw⟩ := pr
    cases cache with
    | none =>
      cases hp : parse raw with
      | error m => simp [loadIndex, hp]
      | ok b => simp [loadIndex, hp]
    | some c =>
      by_cases hc : c.indexPath = indexPath ∧ c.mtimeMs = mt
      · simp [loadIndex, hc]
      · cases hp : parse raw with
        | error m => simp [loadIndex, hc, hp]
        | ok b => simp [loadIndex, hc, hp]

/-- C8: determinism across repeated calls.  A second `searchDocs` request
with the same filesystem state, oracles and parameters — run against the
cache left behind by the first request — returns exactly the first result,
and likewise for `expandHeaderContext`; the pure pipelines read only the
loaded bundle and their parameters. -/
theorem search_expand_deterministic (indexPath : Str) (fsFile : Option (Nat × Str))
    (parse : Str → Except Str IndexBundle) (mini : Str → List SearchHit)
    (p : SearchParams) (retrieved : List RetrievedChunk)
    (maxTotal maxPerHeader maxExtraTotal maxExtraChars : Nat)
    (cache : Option LoadedIndex) :
    (searchDocsCall indexPath fsFile parse mini p
        (searchDocsCall indexPath fsFile parse mini p cache).1).2
      = (searchDocsCall indexPath fsFile parse mini p cache).2
    ∧ (expandCall indexPath fsFile parse retrieved maxTotal maxPerHeader
        maxExtraTotal maxExtraChars
        (expandCall indexPath fsFile parse retrieved maxTotal maxPerHeader
          maxExtraTotal maxExtraChars cache).1).2
      = (expandCall indexPath fsFile parse retrieved maxTotal maxPerHeader
          maxExtraTotal maxExtraChars cache).2 := by
  constructor
  · have hfst : (searchDocsCall indexPath fsFile parse mini p cache).1
        = (loadIndex indexPath fsFile parse cache).2 := by
      unfold searchDocsCall
      rcases loadIndex indexPath fsFile parse cache with ⟨r, c'⟩
      cases r <;> rfl
    rw [hfst]
    unfold searchDocsCall
    rw [loadIndex_idem]
  · have hfst : (expandCall indexPath fsFile parse retrieved maxTotal maxPerHeader
        maxExtraTotal maxExtraChars cache).1
        = (loadIndex indexPath fsFile parse cache).2 := by
      unfold expandCall
      rcases loadIndex indexPath fsFile parse cache with ⟨r, c'⟩
      cases r <;> rfl
    rw [hfst]
    unfold expandCall
    rw [loadIndex_idem]

/-! ## Crawler lemmas -/

theorem processResults_nextId (l : List (Nat × FetchOutcome)) :
    ∀ st newly, (processResults st l newly).1.nextId = st.nextId := by
  induction l with
  | nil => intro st newly; rfl
  | cons x rest ih =>
    intro st newly
    obtain ⟨id, r⟩ := x
    cases r with
    | notFound =>
      simp only [processResults]
      split
      · rfl
      · exact ih _ _
    | found q => exact ih _ _
    | fetchError m => rfl

theorem processResults_items_ext (l : List (Nat × FetchOutcome)) :
    ∀ st newly, ∃ xs, (processResults st l newly).1.items = st.items ++ xs := by
  induction l with
  | nil => intro st newly; exact ⟨[], (List.append_nil _).symm⟩
  | cons x rest ih =>
    intro st newly
    obtain ⟨id, r⟩ := x
    cases r with
    | notFound =>
      simp only [processResults]
      split
      · exact ⟨[], (List.append_nil _).symm⟩
      · exact ih _ _
    | found q =>
      obtain ⟨xs, hxs⟩ := ih { st with notFoundStreak := 0, items := st.items ++ [q] } newly.succ
      exact ⟨[q] ++ xs, by simpa [List.append_assoc] using hxs⟩
    | fetchError m => exact ⟨[], (List.append_nil _).symm⟩

theorem processResults_no_latch (l : List (Nat × FetchOutcome)) :
    ∀ st newly, (∀ x ∈ l, x.2 = FetchOutcome.notFound) →
      st.items.length < minIndexedBeforeStop →
      processResults st l newly
        = ({ st with notFoundStreak := st.notFoundStreak + l.length }, newly) := by
  induction l with
  | nil =>
    intro st newly _ _
    simp [processResults]
  | cons x rest ih =>
    intro st newly hnf hlen
    obtain ⟨id, r⟩ := x
    have hr : r = FetchOutcome.notFound := hnf (id, r) (List.mem_cons_self _ _)
    subst hr
    simp only [processResults]
    rw [if_neg (fun h => absurd h.2 (by simpa using Nat.not_le_of_lt hlen))]
    rw [ih _ newly (fun x hx => hnf x (List.mem_cons_of_mem _ hx)) (by simpa using hlen)]
    have harith : st.notFoundStreak + 1 + rest.length = st.notFoundStreak + (rest.length + 1) := by
      omega
    simp [harith]

theorem processResults_latch (l : List (Nat × FetchOutcome)) (st : FsQuizIndexState)
    (newly : Nat) (h0 : st.notFoundStreak = 0)
    (h200 : minIndexedBeforeStop ≤ st.items.length) (h4 : 4 ≤ l.length)
    (hnf : ∀ x ∈ l, x.2 = FetchOutcome.notFound) :
    processResults st l newly
      = ({ st with notFoundStreak := 4, complete := true }, newly) := by
  obtain ⟨x1, l1, rfl⟩ : ∃ x1 l1, l = x1 :: l1 := by
    cases l with
    | nil => simp at h4
    | cons a t => exact ⟨a, t, rfl⟩
  obtain ⟨x2, l2, rfl⟩ : ∃ x2 l2, l1 = x2 :: l2 := by
    cases l1 with
    | nil => simp at h4
    | cons a t => exact ⟨a, t, rfl⟩
  obtain ⟨x3, l3, rfl⟩ : ∃ x3 l3, l2 = x3 :: l3 := by
    cases l2 with
    | nil => simp at h4
    | cons a t => exact ⟨a, t, rfl⟩
  obtain ⟨x4, l4, rfl⟩ : ∃ x4 l4, l3 = x4 :: l4 := by
    cases l3 with
    | nil => simp at h4
    | cons a t => exact ⟨a, t, rfl⟩
  obtain ⟨i1, r1⟩ := x1
  obtain ⟨i2, r2⟩ := x2
  obtain ⟨i3, r3⟩ := x3
  obtain ⟨i4, r4⟩ := x4
  have e1 : r1 = FetchOutcome.notFound := hnf (i1, r1) (by simp)
  have e2 : r2 = FetchOutcome.notFound := hnf (i2, r2) (by simp)
  have e3 : r3 = FetchOutcome.notFound := hnf (i3, r3) (by simp)
  have e4 : r4 = FetchOutcome.notFound := hnf (i4, r4) (by simp)
  subst e1 e2 e3 e4
  norm_num [processResults, maxConsecutiveNotFound, minIndexedBeforeStop, h0, h200]
  intro hlt
  have h200' : 200 ≤ st.items.length := h200
  omega

theorem zip_self_map (l : List Nat) (f : Nat → FetchOutcome) :
    l.zip (l.map f) = l.map (fun a => (a, f a)) := by
  induction l with
  | nil => rfl
  | cons a t ih => simp [ih]

theorem mem_batchIds {n id : Nat} :
    id ∈ (List.range crawlBatchSize).map (fun i => n + i) ↔ n ≤ id ∧ id < n + 8 := by
  constructor
  · intro h
    simp only [List.mem_map, List.mem_range, crawlBatchSize] at h
    obtain ⟨i, hi, rfl⟩ := h
    omega
  · intro h
    simp only [List.mem_map, List.mem_range, crawlBatchSize]
    exact ⟨id - n, by omega, by omega⟩

theorem runBatch_nextId (fetchQ : Nat → FetchOutcome) (st : FsQuizIndexState) :
    (runBatch fetchQ st).1.nextId = st.nextId + 8 := by
  simp only [runBatch]
  split
  · rfl
  · exact processResults_nextId _ _ _

theorem runBatch_items_ext (fetchQ : Nat → FetchOutcome) (st : FsQuizIndexState) :
    ∃ xs, (runBatch fetchQ st).1.items = st.items ++ xs := by
  simp only [runBatch]
  split
  · exact ⟨[], (List.append_nil _).symm⟩
  · exact processResults_items_ext _ _ _

theorem runBatch_probed (fetchQ : Nat → FetchOutcome) (st : FsQuizIndexState) :
    (runBatch fetchQ st).2.2.1 = (List.range crawlBatchSize).map (fun i => st.nextId + i) := by
  simp only [runBatch]
  split
  · rfl
  · rfl

theorem runBatch_err_none_no_error (fetchQ : Nat → FetchOutcome) (st : FsQuizIndexState)
    (h : (runBatch fetchQ st).2.2.2 = none) :
    ∀ id ∈ (runBatch fetchQ st).2.2.1, (fetchQ id).isError = false := by
  intro id hid
  rw [runBatch_probed] at hid
  simp only [runBatch] at h
  split at h
  · cases h
  · next hna =>
    cases hae : (((List.range crawlBatchSize).map (fun i => st.nextId + i)).map fetchQ).any
        FetchOutcome.isError with
    | false =>
      have := List.any_eq_false.mp hae (fetchQ id) (List.mem_map_of_mem _ hid)
      simpa using this
    | true => exact absurd hae hna

theorem crawlLoop_complete_noop (fetchQ : Nat → FetchOutcome) (fuel : Nat)
    (st : FsQuizIndexState) (newly : Nat) (probed : List Nat) (h : st.complete = true) :
    crawlLoop fetchQ fuel st newly probed = ⟨st, newly, probed, none⟩ := by
  cases fuel with
  | zero => rfl
  | succ f => simp [crawlLoop, h]

theorem crawlLoop_nextId_mono (fetchQ : Nat → FetchOutcome) : ∀ (fuel : Nat)
    (st : FsQuizIndexState) (newly : Nat) (probed : List Nat),
    st.nextId ≤ (crawlLoop fetchQ fuel st newly probed).state.nextId := by
  intro fuel
  induction fuel with
  | zero => intro st newly probed; exact le_refl _
  | succ f ih =>
    intro st newly probed
    by_cases h : st.complete = true
    · simp [crawlLoop, h]
    · have hb := runBatch_nextId fetchQ st
      simp only [crawlLoop, h, Bool.false_eq_true, if_false]
      rcases herr : (runBatch fetchQ st).2.2.2 with _ | e
      · rcases hc : (runBatch fetchQ st).1.complete with _ | _
        · simp only [herr, hc, Bool.false_eq_true, if_false]
          calc st.nextId ≤ st.nextId + 8 := Nat.le_add_right _ _
            _ = (runBatch fetchQ st).1.nextId := hb.symm
            _ ≤ _ := ih _ _ _
        · simp only [herr, hc, if_true]
          omega
      · simp only [herr]
        omega

theorem crawlLoop_items_ext (fetchQ : Nat → FetchOutcome) : ∀ (fuel : Nat)
    (st : FsQuizIndexState) (newly : Nat) (probed : List Nat),
    ∃ xs, (crawlLoop fetchQ fuel st newly probed).state.items = st.items ++ xs := by
  intro fuel
  induction fuel with
  | zero => intro st newly probed; exact ⟨[], (List.append_nil _).symm⟩
  | succ f ih =>
    intro st newly probed
    by_cases h : st.complete = true
    · simp [crawlLoop, h]
    · obtain ⟨xs, hxs⟩ := runBatch_items_ext fetchQ st
      simp only [crawlLoop, h, Bool.false_eq_true, if_false]
      rcases herr : (runBatch fetchQ st).2.2.2 with _ | e
      · rcases hc : (runBatch fetchQ st).1.complete with _ | _
        · simp only [herr, hc, Bool.false_eq_true, if_false]
          obtain ⟨ys, hys⟩ := ih (runBatch fetchQ st).1 (newly + (runBatch fetchQ st).2.1)
            (probed ++ (runBatch fetchQ st).2.2.1)
          exact ⟨xs ++ ys, by rw [hys, hxs, List.append_assoc]⟩
        · simp only [herr, hc, if_true]
          exact ⟨xs, hxs⟩
      · simp only [herr]
        exact ⟨xs, hxs⟩

theorem crawlLoop_probed_ge (fetchQ : Nat → FetchOutcome) : ∀ (fuel : Nat)
    (st : FsQuizIndexState) (newly : Nat) (probed : List Nat) (id : Nat),
    id ∈ (crawlLoop fetchQ fuel st newly probed).probed →
    id ∈ probed ∨ st.nextId ≤ id := by
  intro fuel
  induction fuel with
  | zero => intro st newly probed id h; exact Or.inl h
  | succ f ih =>
    intro st newly probed id hmem
    by_cases h : st.complete = true
    · rw [crawlLoop_complete_noop fetchQ _ _ _ _ h] at hmem
      exact Or.inl hmem
    · have hpr := runBatch_probed fetchQ st
      have hnx := runBatch_nextId fetchQ st
      simp only [crawlLoop, h, Bool.false_eq_true, if_false] at hmem
      have hsplit : ∀ x, x ∈ probed ++ (runBatch fetchQ st).2.2.1 →
          x ∈ probed ∨ st.nextId ≤ x := by
        intro x hx
        rcases List.mem_append.mp hx with hx | hx
        · exact Or.inl hx
        · rw [hpr] at hx
          exact Or.inr (mem_batchIds.mp hx).1
      rcases herr : (runBatch fetchQ st).2.2.2 with _ | e
      · rcases hc : (runBatch fetchQ st).1.complete with _ | _
        · simp only [herr, hc, Bool.false_eq_true, if_false] at hmem
          rcases ih _ _ _ _ hmem with hin | hge
          · exact hsplit id hin
          · exact Or.inr (le_trans (by omega) hge)
        · simp only [herr, hc, if_true] at hmem
          exact hsplit id hmem
      · simp only [herr] at hmem
        exact hsplit id hmem

theorem crawlLoop_err_none_no_error (fetchQ : Nat → FetchOutcome) : ∀ (fuel : Nat)
    (st : FsQuizIndexState) (newly : Nat) (probed : List Nat),
    (crawlLoop fetchQ fuel st newly probed).err = none →
    ∀ id ∈ (crawlLoop fetchQ fuel st newly probed).probed,
      id ∈ probed ∨ (fetchQ id).isError = false := by
  intro fuel
  induction fuel with
  | zero => intro st newly probed _ id h; exact Or.inl h
  | succ f ih =>
    intro st newly probed herrnone id hmem
    by_cases h : st.complete = true
    · rw [crawlLoop_complete_noop fetchQ _ _ _ _ h] at hmem
      exact Or.inl hmem
    · simp only [crawlLoop, h, Bool.false_eq_true, if_false] at hmem herrnone
      rcases herr : (runBatch fetchQ st).2.2.2 with _ | e
      · have hbatch := runBatch_err_none_no_error fetchQ st herr
        have hsplit : ∀ x, x ∈ probed ++ (runBatch fetchQ st).2.2.1 →
            x ∈ probed ∨ (fetchQ x).isError = false := by
          intro x hx
          rcases List.mem_append.mp hx with hx | hx
          · exact Or.inl hx
          · exact Or.inr (hbatch x hx)
        rcases hc : (runBatch fetchQ st).1.complete with _ | _
        · simp only [herr, hc, Bool.false_eq_true, if_false] at hmem herrnone
          rcases ih _ _ _ herrnone id hmem with hin | hok
          · exact hsplit id hin
          · exact Or.inr hok
        · simp only [herr, hc, if_true] at hmem
          exact hsplit id hmem
      · simp only [herr] at herrnone
        cases herrnone

theorem getIndexState_not_corrupt (s : FsQuizIndexState)
    (hnc : ¬(s.complete = true ∧ s.items = [])) :
    (getIndexState (some s)).complete = s.complete
    ∧ (getIndexState (some s)).items = s.items
    ∧ (getIndexState (some s)).notFoundStreak = s.notFoundStreak
    ∧ s.nextId ≤ (getIndexState (some s)).nextId
    ∧ (1 ≤ s.nextId → getIndexState (some s) = s) := by
  simp only [getIndexState, if_neg hnc]
  by_cases h1 : s.nextId < 1
  · simp only [if_pos h1]
    exact ⟨by simp, by simp, by simp, by omega, fun h => absurd h (by omega)⟩
  · simp only [if_neg h1]
    exact ⟨by simp, by simp, by simp, le_refl _, fun _ => by simp⟩

theorem batch_results_notFound (fetchQ : Nat → FetchOutcome) (n : Nat)
    (hnf : ∀ i, n ≤ i → i < n + 8 → fetchQ i = FetchOutcome.notFound) :
    ∀ x ∈ ((List.range crawlBatchSize).map (fun i => n + i)).zip
      (((List.range crawlBatchSize).map (fun i => n + i)).map fetchQ),
      x.2 = FetchOutcome.notFound := by
  intro x hx
  rw [zip_self_map] at hx
  obtain ⟨a, ha, rfl⟩ := List.mem_map.mp hx
  exact hnf a (mem_batchIds.mp ha).1 (mem_batchIds.mp ha).2

theorem batch_any_error_false (fetchQ : Nat → FetchOutcome) (n : Nat)
    (hnf : ∀ i, n ≤ i → i < n + 8 → fetchQ i = FetchOutcome.notFound) :
    ((((List.range crawlBatchSize).map (fun i => n + i))).map fetchQ).any
      FetchOutcome.isError = false := by
  apply List.any_eq_false.mpr
  intro r hr
  obtain ⟨a, ha, rfl⟩ := List.mem_map.mp hr
  rw [hnf a (mem_batchIds.mp ha).1 (mem_batchIds.mp ha).2]
  simp [FetchOutcome.isError]

theorem batch_zip_length (fetchQ : Nat → FetchOutcome) (n : Nat) :
    (((List.range crawlBatchSize).map (fun i => n + i)).zip
      (((List.range crawlBatchSize).map (fun i => n + i)).map fetchQ)).length = 8 := by
  simp [crawlBatchSize]

theorem runBatch_all_notFound (fetchQ : Nat → FetchOutcome) (st : FsQuizIndexState)
    (hnf : ∀ i, st.nextId ≤ i → i < st.nextId + 8 → fetchQ i = FetchOutcome.notFound)
    (hlen : st.items.length < minIndexedBeforeStop) :
    runBatch fetchQ st
      = ({ st with nextId := st.nextId + 8, notFoundStreak := st.notFoundStreak + 8 },
         0, (List.range crawlBatchSize).map (fun i => st.nextId + i), none) := by
  simp only [runBatch, batch_any_error_false fetchQ st.nextId hnf, Bool.false_eq_true, if_false]
  rw [processResults_no_latch _ _ _ (batch_results_notFound fetchQ st.nextId hnf)
    (by simpa using hlen)]
  rw [batch_zip_length]
  simp [crawlBatchSize]

theorem runBatch_latch (fetchQ : Nat → FetchOutcome) (st : FsQuizIndexState)
    (hnf : ∀ i, st.nextId ≤ i → i < st.nextId + 8 → fetchQ i = FetchOutcome.notFound)
    (h0 : st.notFoundStreak = 0) (h200 : minIndexedBeforeStop ≤ st.items.length) :
    runBatch fetchQ st
      = ({ st with nextId := st.nextId + 8, notFoundStreak := 4, complete := true },
         0, (List.range crawlBatchSize).map (fun i => st.nextId + i), none) := by
  simp only [runBatch, batch_any_error_false fetchQ st.nextId hnf, Bool.false_eq_true, if_false]
  rw [processResults_latch _ _ _ (by simpa using h0) (by simpa using h200)
    (by rw [batch_zip_length]; omega) (batch_results_notFound fetchQ st.nextId hnf)]
  simp [crawlBatchSize]

theorem runBatch_error (fetchQ : Nat → FetchOutcome) (st : FsQuizIndexState)
    (herr : ∃ i, i < 8 ∧ (fetchQ (st.nextId + i)).isError = true) :
    (runBatch fetchQ st).1 = { st with nextId := st.nextId + 8 }
    ∧ (runBatch fetchQ st).2.2.2.isSome = true
    ∧ (runBatch fetchQ st).2.2.1 = (List.range crawlBatchSize).map (fun i => st.nextId + i) := by
  obtain ⟨i, hi, he⟩ := herr
  have hany : ((((List.range crawlBatchSize).map (fun j => st.nextId + j))).map fetchQ).any
      FetchOutcome.isError = true := by
    apply List.any_eq_true.mpr
    refine ⟨fetchQ (st.nextId + i), List.mem_map_of_mem _ ?_, he⟩
    exact mem_batchIds.mpr ⟨Nat.le_add_right _ _, by omega⟩
  simp only [runBatch]
  rw [hany]
  simp [crawlBatchSize]

/-! ## C4 — crawl cursor monotonicity and one-way completion latch -/

/-- C4: across an `ensureIndexed` call on a non-corrupt state, the cursor
never decreases (the `getIndexState` sanitization included); a completed
state is a latch — the call performs no work and keeps its items; and a batch
whose 8 ids (101–108) all return "not found" with fewer than 200 entries
indexed does NOT latch completion, while the cursor still advances to 109. -/
theorem crawl_cursor_monotone_latch (fetchQ : Nat → FetchOutcome)
    (s : FsQuizIndexState) (fuel : Nat)
    (hnc : ¬(s.complete = true ∧ s.items = [])) :
    s.nextId ≤ (ensureIndexedUntilEnd fetchQ (some s) fuel).state.nextId
    ∧ (s.complete = true →
        (ensureIndexedUntilEnd fetchQ (some s) fuel).state.complete = true
        ∧ (ensureIndexedUntilEnd fetchQ (some s) fuel).state.items = s.items
        ∧ (ensureIndexedUntilEnd fetchQ (some s) fuel).newlyIndexed = 0)
    ∧ (s.complete = false → s.nextId = 101 →
        s.items.length < minIndexedBeforeStop →
        (∀ i, 101 ≤ i → i ≤ 108 → fetchQ i = FetchOutcome.notFound) →
        (ensureIndexedUntilEnd fetchQ (some s) 1).state.complete = false
        ∧ (ensureIndexedUntilEnd fetchQ (some s) 1).state.nextId = 109) := by
  obtain ⟨hc, hi, hk, hn, hid⟩ := getIndexState_not_corrupt s hnc
  refine ⟨?_, ?_, ?_⟩
  · simp only [ensureIndexedUntilEnd]
    by_cases hcompl : (getIndexState (some s)).complete = true
    · simp only [hcompl, if_true]
      exact hn
    · simp only [hcompl, Bool.false_eq_true, if_false]
      exact le_trans hn (le_trans (le_refl _) (crawlLoop_nextId_mono fetchQ fuel _ 0 []))
  · intro hsc
    have hcompl : (getIndexState (some s)).complete = true := by rw [hc, hsc]
    simp [ensureIndexedUntilEnd, hcompl, hi]
  · intro hsc h101 hlen hnf
    have hgs : getIndexState (some s) = s := hid (by omega)
    have hnf' : ∀ i, s.nextId ≤ i → i < s.nextId + 8 → fetchQ i = FetchOutcome.notFound := by
      intro i hge hlt
      exact hnf i (by omega) (by omega)
    have hb := runBatch_all_notFound fetchQ s hnf' hlen
    have hcompl : ¬((getIndexState (some s)).complete = true) := by
      rw [hgs, hsc]; simp
    simp only [ensureIndexedUntilEnd, hgs, hsc, Bool.false_eq_true, if_false]
    simp only [crawlLoop, hsc, Bool.false_eq_true, if_false, hb]
    simp [hsc, h101]

/-- C4 witness: the third conjunct at a concrete state with 150 indexed
entries, cursor 101 and an all-"not found" oracle. -/
theorem crawl_cursor_monotone_latch_witness :
    (ensureIndexedUntilEnd (fun _ => FetchOutcome.notFound) (some c4State) 1).state.complete
      = false
    ∧ (ensureIndexedUntilEnd (fun _ => FetchOutcome.notFound) (some c4State) 1).state.nextId
      = 109 :=
  (crawl_cursor_monotone_latch (fun _ => FetchOutcome.notFound) c4State 1
    (by decide)).2.2 (by decide) (by decide) (by decide) (fun i _ _ => rfl)

/-! ## C3 — crawl stop condition -/

/-- C3: counterexample.  From a state with 200 indexed entries and an
all-"not found" upstream, completion latches upon processing the 4th response
(the streak stops at 4) — but the remaining batch entries 5–8 WERE probed:
all 8 fetches of the batch are issued concurrently (`Promise.all`) before any
result is processed, so "the remaining batch entries are not probed" is
false. -/
theorem c3_counterexample :
    (ensureIndexedUntilEnd (fun _ => FetchOutcome.notFound) (some c3State) 1).state.complete
      = true
    ∧ (ensureIndexedUntilEnd (fun _ => FetchOutcome.notFound)
        (some c3State) 1).state.notFoundStreak = 4
    ∧ (ensureIndexedUntilEnd (fun _ => FetchOutcome.notFound) (some c3State) 1).probed
      = [1, 2, 3, 4, 5, 6, 7, 8] := by
  decide

/-- C3 (amended): with ≥ 200 entries indexed and a batch of "not found"
responses, completion latches upon processing the 4th response and the
remaining batch RESULTS are not processed (the streak stops at 4, nothing is
appended, no further batch is issued) — but all 8 ids of the batch are still
probed, because the batch fetches are joined before processing. -/
theorem crawl_stop_condition (fetchQ : Nat → FetchOutcome) (s : FsQuizIndexState)
    (fuel : Nat) (hc : s.complete = false) (h1 : 1 ≤ s.nextId)
    (h0 : s.notFoundStreak = 0) (h200 : minIndexedBeforeStop ≤ s.items.length)
    (hnf : ∀ i, s.nextId ≤ i → i < s.nextId + 8 → fetchQ i = FetchOutcome.notFound)
    (hf : 1 ≤ fuel) :
    (ensureIndexedUntilEnd fetchQ (some s) fuel).state.complete = true
    ∧ (ensureIndexedUntilEnd fetchQ (some s) fuel).state.notFoundStreak = 4
    ∧ (ensureIndexedUntilEnd fetchQ (some s) fuel).state.items = s.items
    ∧ (ensureIndexedUntilEnd fetchQ (some s) fuel).newlyIndexed = 0
    ∧ (ensureIndexedUntilEnd fetchQ (some s) fuel).state.nextId = s.nextId + 8
    ∧ (ensureIndexedUntilEnd fetchQ (some s) fuel).probed
      = (List.range crawlBatchSize).map (fun i => s.nextId + i) := by
  have hnc : ¬(s.complete = true ∧ s.items = []) := by
    rintro ⟨h, _⟩
    rw [hc] at h
    cases h
  have hgs : getIndexState (some s) = s :=
    (getIndexState_not_corrupt s hnc).2.2.2.2 h1
  obtain ⟨f, rfl⟩ : ∃ f, fuel = f + 1 := ⟨fuel - 1, by omega⟩
  have hb := runBatch_latch fetchQ s hnf h0 h200
  simp only [ensureIndexedUntilEnd, hgs, hc, Bool.false_eq_true, if_false]
  simp only [crawlLoop, hc, Bool.false_eq_true, if_false, hb]
  simp

/-- C3 witness: the amended theorem at the concrete 200-entry state with an
all-"not found" oracle and fuel 1. -/
theorem crawl_stop_condition_witness :
    (ensureIndexedUntilEnd (fun _ => FetchOutcome.notFound) (some c3State) 1).state.complete
      = true
    ∧ (ensureIndexedUntilEnd (fun _ => FetchOutcome.notFound)
        (some c3State) 1).state.nextId = 9 :=
  ⟨(crawl_stop_condition (fun _ => FetchOutcome.notFound) c3State 1 (by decide) (by decide)
      (by decide) (by decide) (fun i _ _ => rfl) (by decide)).1,
   (crawl_stop_condition (fun _ => FetchOutcome.notFound) c3State 1 (by decide) (by decide)
      (by decide) (by decide) (fun i _ _ => rfl) (by decide)).2.2.2.2.1⟩

/-! ## C7 — fatal fetch errors and retention of indexed state -/

/-- C7: a transport-level fetch failure inside a batch makes the whole
`ensureIndexed` call fail (a successful call has probed only non-erroring
ids), and the entries already appended to the shared index before the failing
batch are retained: the state's item list only ever grows from the state the
call started with. -/
theorem crawl_error_propagation (fetchQ : Nat → FetchOutcome)
    (prev : Option FsQuizIndexState) (fuel : Nat) :
    (∃ xs, (ensureIndexedUntilEnd fetchQ prev fuel).state.items
        = (getIndexState prev).items ++ xs)
    ∧ ((ensureIndexedUntilEnd fetchQ prev fuel).err = none →
        ∀ id ∈ (ensureIndexedUntilEnd fetchQ prev fuel).probed,
          (fetchQ id).isError = false)
    ∧ (∀ s, prev = some s → s.complete = false → 1 ≤ s.nextId →
        (∃ i, i < 8 ∧ (fetchQ (s.nextId + i)).isError = true) → 1 ≤ fuel →
        (ensureIndexedUntilEnd fetchQ prev fuel).err.isSome = true
        ∧ (ensureIndexedUntilEnd fetchQ prev fuel).state.items = s.items) := by
  refine ⟨?_, ?_, ?_⟩
  · simp only [ensureIndexedUntilEnd]
    by_cases hcompl : (getIndexState prev).complete = true
    · simp only [hcompl, if_true]
      exact ⟨[], (List.append_nil _).symm⟩
    · simp only [hcompl, Bool.false_eq_true, if_false]
      exact crawlLoop_items_ext fetchQ fuel _ 0 []
  · simp only [ensureIndexedUntilEnd]
    by_cases hcompl : (getIndexState prev).complete = true
    · simp only [hcompl, if_true]
      intro _ id hid
      cases hid
    · simp only [hcompl, Bool.false_eq_true, if_false]
      intro hnone id hid
      rcases crawlLoop_err_none_no_error fetchQ fuel _ 0 [] hnone id hid with hin | hok
      · cases hin
      · exact hok
  · rintro s rfl hsc h1 herr hf
    have hnc : ¬(s.complete = true ∧ s.items = []) := by
      rintro ⟨h, _⟩
      rw [hsc] at h
      cases h
    have hgs : getIndexState (some s) = s :=
      (getIndexState_not_corrupt s hnc).2.2.2.2 h1
    obtain ⟨f, rfl⟩ : ∃ f, fuel = f + 1 := ⟨fuel - 1, by omega⟩
    obtain ⟨hst, hsome, hids⟩ := runBatch_error fetchQ s herr
    obtain ⟨m, hm⟩ := Option.isSome_iff_exists.mp hsome
    simp only [ensureIndexedUntilEnd, hgs, hsc, Bool.false_eq_true, if_false]
    simp only [crawlLoop, hsc, Bool.false_eq_true, if_false, hm, hst]
    simp

/-- C7 witness: the failure conjunct at a concrete state with one retained
entry, cursor 11 and a batch whose id 13 fails with a transport error. -/
theorem crawl_error_propagation_witness :
    (ensureIndexedUntilEnd c7Fetch (some c7State) 1).err.isSome = true
    ∧ (ensureIndexedUntilEnd c7Fetch (some c7State) 1).state.items = c7State.items :=
  (crawl_error_propagation c7Fetch (some c7State) 1).2.2 c7State rfl (by decide) (by decide)
    ⟨2, by decide, by decide⟩ (by decide)

/-! ## C9 — a failed batch appends nothing, yet its ids are never re-probed -/

/-- C9: when a fetch of a batch fails, nothing from that batch — the batch's
successful fetches included — is appended to the index, but the cursor was
already advanced past the whole batch before the fetches resolved, and every
later call on the retained state only probes ids beyond the failed batch. -/
theorem crawl_failed_batch_not_retried (fetchQ : Nat → FetchOutcome)
    (s : FsQuizIndexState) (fuel : Nat) (hc : s.complete = false) (h1 : 1 ≤ s.nextId)
    (hf : 1 ≤ fuel) (herr : ∃ i, i < 8 ∧ (fetchQ (s.nextId + i)).isError = true) :
    (ensureIndexedUntilEnd fetchQ (some s) fuel).err.isSome = true
    ∧ (ensureIndexedUntilEnd fetchQ (some s) fuel).state.items = s.items
    ∧ (ensureIndexedUntilEnd fetchQ (some s) fuel).state.nextId = s.nextId + 8
    ∧ (ensureIndexedUntilEnd fetchQ (some s) fuel).state.complete = false
    ∧ (∀ fetchQ2 fuel2 id,
        id ∈ (ensureIndexedUntilEnd fetchQ2
          (some (ensureIndexedUntilEnd fetchQ (some s) fuel).state) fuel2).probed →
        s.nextId + 8 ≤ id) := by
  have hnc : ¬(s.complete = true ∧ s.items = []) := by
    rintro ⟨h, _⟩
    rw [hc] at h
    cases h
  have hgs : getIndexState (some s) = s :=
    (getIndexState_not_corrupt s hnc).2.2.2.2 h1
  obtain ⟨f, rfl⟩ : ∃ f, fuel = f + 1 := ⟨fuel - 1, by omega⟩
  obtain ⟨hst, hsome, hids⟩ := runBatch_error fetchQ s herr
  obtain ⟨m, hm⟩ := Option.isSome_iff_exists.mp hsome
  have hrun : ensureIndexedUntilEnd fetchQ (some s) (f + 1)
      = ⟨{ s with nextId := s.nextId + 8 }, 0,
         [] ++ (runBatch fetchQ s).2.2.1, some m⟩ := by
    simp only [ensureIndexedUntilEnd, hgs, hc, Bool.false_eq_true, if_false]
    simp only [crawlLoop, hc, Bool.false_eq_true, if_false, hm, hst]
  have hstate : (ensureIndexedUntilEnd fetchQ (some s) (f + 1)).state
      = { s with nextId := s.nextId + 8 } := by rw [hrun]
  refine ⟨by simp [hrun], by rw [hstate], by rw [hstate], by rw [hstate]; exact hc, ?_⟩
  intro fetchQ2 fuel2 id hid
  rw [hstate] at hid
  have hnc2 : ¬(({ s with nextId := s.nextId + 8 } : FsQuizIndexState).complete = true
      ∧ ({ s with nextId := s.nextId + 8 } : FsQuizIndexState).items = []) := by
    rintro ⟨h, _⟩
    rw [show ({ s with nextId := s.nextId + 8 } : FsQuizIndexState).complete = s.complete
      from rfl, hc] at h
    cases h
  have hgs2 : getIndexState (some ({ s with nextId := s.nextId + 8 } : FsQuizIndexState))
      = { s with nextId := s.nextId + 8 } :=
    (getIndexState_not_corrupt _ hnc2).2.2.2.2 (by show 1 ≤ s.nextId + 8; omega)
  unfold ensureIndexedUntilEnd at hid
  rw [hgs2] at hid
  by_cases hcompl : ({ s with nextId := s.nextId + 8 } : FsQuizIndexState).complete = true
  · rw [if_pos hcompl] at hid
    cases hid
  · rw [if_neg hcompl] at hid
    rcases crawlLoop_probed_ge fetchQ2 fuel2 _ 0 [] id hid with hin | hge
    · cases hin
    · simpa using hge

/-- C9 witness: the concrete state with cursor 21, one retained entry and a
batch whose id 22 fails while its batch-mates succeed. -/
theorem crawl_failed_batch_not_retried_witness :
    (ensureIndexedUntilEnd c9Fetch (some c9State) 1).err.isSome = true
    ∧ (ensureIndexedUntilEnd c9Fetch (some c9State) 1).state.items = c9State.items
    ∧ (ensureIndexedUntilEnd c9Fetch (some c9State) 1).state.nextId = 29 :=
  ⟨(crawl_failed_batch_not_retried c9Fetch c9State 1 (by decide) (by decide) (by decide)
      ⟨1, by decide, by decide⟩).1,
   (crawl_failed_batch_not_retried c9Fetch c9State 1 (by decide) (by decide) (by decide)
      ⟨1, by decide, by decide⟩).2.1,
   (crawl_failed_batch_not_retried c9Fetch c9State 1 (by decide) (by decide) (by decide)
      ⟨1, by decide, by decide⟩).2.2.1⟩

/-! ## C1 — shape of the `searchDocs` result -/

theorem searchOut_sorted (bundle : IndexBundle) (mini : Str → List SearchHit)
    (p : SearchParams) : SortedByScoreDesc (searchOut bundle mini p) := by
  show List.Sorted _ (searchOut bundle mini p)
  unfold searchOut
  exact sorted_sortByKeyDesc _ _

theorem pickFirstPass_structure (limit : Nat) : ∀ (l acc : List RetrievedChunk)
    (pf : Str → Nat) (ids : Str → Bool),
    ∃ s, (pickFirstPass limit l acc pf ids).1 = acc ++ s ∧ s.Sublist l := by
  intro l
  induction l with
  | nil => intro acc pf ids; exact ⟨[], (List.append_nil _).symm, List.nil_sublist _⟩
  | cons item rest ih =>
    intro acc pf ids
    simp only [pickFirstPass]
    by_cases h4 : 4 ≤ pf item.fileName
    · rw [if_pos h4]
      obtain ⟨s, hs, hsub⟩ := ih acc pf ids
      exact ⟨s, hs, hsub.cons _⟩
    · rw [if_neg h4]
      by_cases hl : limit ≤ (acc ++ [item]).length
      · rw [if_pos hl]
        exact ⟨[item], rfl, (List.nil_sublist _).cons₂ _⟩
      · rw [if_neg hl]
        obtain ⟨s, hs, hsub⟩ := ih (acc ++ [item])
          (fun f => if f = item.fileName then pf item.fileName + 1 else pf f)
          (fun id => ids id || id = item.chunkId)
        refine ⟨item :: s, ?_, hsub.cons₂ _⟩
        rw [hs, List.append_assoc]
        rfl

theorem pickFirstPass_length (limit : Nat) : ∀ (l acc : List RetrievedChunk)
    (pf : Str → Nat) (ids : Str → Bool), acc.length < limit →
    (pickFirstPass limit l acc pf ids).1.length ≤ limit := by
  intro l
  induction l with
  | nil => intro acc pf ids h; exact le_of_lt h
  | cons item rest ih =>
    intro acc pf ids h
    simp only [pickFirstPass]
    by_cases h4 : 4 ≤ pf item.fileName
    · rw [if_pos h4]
      exact ih _ _ _ h
    · rw [if_neg h4]
      by_cases hl : limit ≤ (acc ++ [item]).length
      · rw [if_pos hl]
        simp only [List.length_append, List.length_singleton]
        omega
      · rw [if_neg hl]
        apply ih
        simp only [List.length_append, List.length_singleton] at hl ⊢
        omega

theorem countFile_append_one (acc : List RetrievedChunk) (item : RetrievedChunk) (g : Str) :
    countFile g (acc ++ [item])
      = countFile g acc + (if g = item.fileName then 1 else 0) := by
  simp only [countFile, List.countP_append, List.countP_cons, List.countP_nil]
  by_cases hg : g = item.fileName
  · subst hg
    simp
  · have : ¬(item.fileName = g) := fun h => hg h.symm
    simp [hg, this]

theorem pickFirstPass_cap (limit : Nat) : ∀ (l acc : List RetrievedChunk)
    (pf : Str → Nat) (ids : Str → Bool),
    (∀ f, countFile f acc = pf f) → (∀ f, pf f ≤ 4) →
    ∀ f, countFile f (pickFirstPass limit l acc pf ids).1 ≤ 4 := by
  intro l
  induction l with
  | nil =>
    intro acc pf ids hinv hb f
    rw [show (pickFirstPass limit [] acc pf ids).1 = acc from rfl, hinv f]
    exact hb f
  | cons item rest ih =>
    intro acc pf ids hinv hb f
    simp only [pickFirstPass]
    by_cases h4 : 4 ≤ pf item.fileName
    · rw [if_pos h4]
      exact ih _ _ _ hinv hb f
    · rw [if_neg h4]
      have hinv' : ∀ g, countFile g (acc ++ [item])
          = (fun f' => if f' = item.fileName then pf item.fileName + 1 else pf f') g := by
        intro g
        rw [countFile_append_one, hinv g]
        by_cases hg : g = item.fileName
        · subst hg
          simp
        · simp [hg]
      have hb' : ∀ g, (fun f' => if f' = item.fileName then pf item.fileName + 1 else pf f') g
          ≤ 4 := by
        intro g
        by_cases hg : g = item.fileName
        · simp only [hg, if_pos]
          omega
        · simp only [if_neg hg]
          exact hb g
      by_cases hl : limit ≤ (acc ++ [item]).length
      · rw [if_pos hl]
        show countFile f (acc ++ [item]) ≤ 4
        rw [hinv' f]
        exact hb' f
      · rw [if_neg hl]
        exact ih _ _ _ hinv' hb' f

theorem pickFirstPass_ids (limit : Nat) : ∀ (l acc : List RetrievedChunk)
    (pf : Str → Nat) (ids : Str → Bool),
    (∀ id, ids id = true ↔ id ∈ idsOf acc) →
    ∀ id, (pickFirstPass limit l acc pf ids).2 id = true
      ↔ id ∈ idsOf (pickFirstPass limit l acc pf ids).1 := by
  intro l
  induction l with
  | nil => intro acc pf ids hinv id; exact hinv id
  | cons item rest ih =>
    intro acc pf ids hinv id
    simp only [pickFirstPass]
    by_cases h4 : 4 ≤ pf item.fileName
    · rw [if_pos h4]
      exact ih _ _ _ hinv id
    · rw [if_neg h4]
      have hinv' : ∀ j, (fun i => ids i || i = item.chunkId) j = true
          ↔ j ∈ idsOf (acc ++ [item]) := by
        intro j
        simp only [idsOf, List.map_append, List.map_cons, List.map_nil, List.mem_append,
          Bool.or_eq_true, decide_eq_true_eq, List.mem_singleton]
        rw [hinv j]
        simp [idsOf]
      by_cases hl : limit ≤ (acc ++ [item]).length
      · rw [if_pos hl]
        exact hinv' id
      · rw [if_neg hl]
        exact ih _ _ _ hinv' id

theorem backfillPass_structure (limit : Nat) : ∀ (l acc : List RetrievedChunk)
    (ids : Str → Bool),
    ∃ s, backfillPass limit l acc ids = acc ++ s ∧ s.Sublist l := by
  intro l
  induction l with
  | nil => intro acc ids; exact ⟨[], (List.append_nil _).symm, List.nil_sublist _⟩
  | cons item rest ih =>
    intro acc ids
    simp only [backfillPass]
    by_cases hin : ids item.chunkId = true
    · rw [if_pos hin]
      obtain ⟨s, hs, hsub⟩ := ih acc ids
      exact ⟨s, hs, hsub.cons _⟩
    · rw [if_neg hin]
      by_cases hl : limit ≤ (acc ++ [item]).length
      · rw [if_pos hl]
        exact ⟨[item], rfl, (List.nil_sublist _).cons₂ _⟩
      · rw [if_neg hl]
        obtain ⟨s, hs, hsub⟩ := ih (acc ++ [item]) (fun id => ids id || id = item.chunkId)
        refine ⟨item :: s, ?_, hsub.cons₂ _⟩
        rw [hs, List.append_assoc]
        rfl

theorem backfillPass_length (limit : Nat) : ∀ (l acc : List RetrievedChunk)
    (ids : Str → Bool), acc.length < limit →
    (backfillPass limit l acc ids).length ≤ limit := by
  intro l
  induction l with
  | nil => intro acc ids h; exact le_of_lt h
  | cons item rest ih =>
    intro acc ids h
    simp only [backfillPass]
    by_cases hin : ids item.chunkId = true
    · rw [if_pos hin]
      exact ih _ _ h
    · rw [if_neg hin]
      by_cases hl : limit ≤ (acc ++ [item]).length
      · rw [if_pos hl]
        simp only [List.length_append, List.length_singleton]
        omega
      · rw [if_neg hl]
        apply ih
        simp only [List.length_append, List.length_singleton] at hl ⊢
        omega

/-- C1: counterexample.  With limit 6, file `A` holding the five best chunks
(scores 10…6) and file `B` one chunk of score 1, the per-file cap skips `A`'s
fifth chunk, the first pass picks scores [10, 9, 8, 7, 1], and the backfill
APPENDS the skipped score-6 chunk after the score-1 chunk — the result is not
sorted by descending score, so overall score order is NOT preserved in the
backfill case. -/
theorem c1_counterexample :
    (searchDocs c1Bundle c1Mini c1Params).map RetrievedChunk.score = [10, 9, 8, 7, 1, 6]
    ∧ ¬ SortedByScoreDesc (searchDocs c1Bundle c1Mini c1Params) := by
  have hmap : (searchDocs c1Bundle c1Mini c1Params).map RetrievedChunk.score
      = [10, 9, 8, 7, 1, 6] := by
    with_unfolding_all decide
  refine ⟨hmap, ?_⟩
  intro hs
  have hp : List.Pairwise (fun a b : ℚ => b ≤ a)
      ((searchDocs c1Bundle c1Mini c1Params).map RetrievedChunk.score) :=
    List.Pairwise.map _ (fun a b h => h) hs
  rw [hmap] at hp
  exact absurd hp (by with_unfolding_all decide)

/-- C1 (amended): for `limit ≥ 1` the `searchDocs` result has length at most
`limit`; it is the first (diversity) pass followed by the backfill picks;
the first pass is sorted by descending score with at most 4 chunks per source
file, and the backfill segment is itself sorted by descending score; when no
backfill pick was needed the whole result is sorted with the per-file cap —
but in the backfill case the appended picks may break the overall order. -/
theorem searchDocs_shape (bundle : IndexBundle) (mini : Str → List SearchHit)
    (p : SearchParams) (hl : 1 ≤ p.limit.getD 12) :
    (searchDocs bundle mini p).length ≤ p.limit.getD 12
    ∧ SortedByScoreDesc (searchFirstPass bundle mini p)
    ∧ (∀ f, countFile f (searchFirstPass bundle mini p) ≤ 4)
    ∧ ∃ bf, searchDocs bundle mini p = searchFirstPass bundle mini p ++ bf
        ∧ SortedByScoreDesc bf
        ∧ (bf = [] → SortedByScoreDesc (searchDocs bundle mini p)
            ∧ ∀ f, countFile f (searchDocs bundle mini p) ≤ 4) := by
  have hsort := searchOut_sorted bundle mini p
  obtain ⟨s, hs, hsub⟩ := pickFirstPass_structure (p.limit.getD 12)
    (searchOut bundle mini p) [] (fun _ => 0) (fun _ => false)
  have hfp_eq : searchFirstPass bundle mini p
      = (pickFirstPass (p.limit.getD 12) (searchOut bundle mini p) []
          (fun _ => 0) (fun _ => false)).1 := rfl
  have hfp_sub : (searchFirstPass bundle mini p).Sublist (searchOut bundle mini p) := by
    rw [hfp_eq, hs]
    simpa using hsub
  have hfp_sorted : SortedByScoreDesc (searchFirstPass bundle mini p) :=
    List.Pairwise.sublist hfp_sub hsort
  have hfp_cap : ∀ f, countFile f (searchFirstPass bundle mini p) ≤ 4 := by
    rw [hfp_eq]
    exact pickFirstPass_cap _ _ _ _ _ (fun f => by simp [countFile]) (fun f => by omega)
  have hfp_len : (searchFirstPass bundle mini p).length ≤ p.limit.getD 12 := by
    rw [hfp_eq]
    exact pickFirstPass_length _ _ _ _ _ (by simpa using hl)
  have hsd : searchDocs bundle mini p
      = if (searchFirstPass bundle mini p).length < p.limit.getD 12 then
          backfillPass (p.limit.getD 12) (searchOut bundle mini p)
            (searchFirstPass bundle mini p)
            (pickFirstPass (p.limit.getD 12) (searchOut bundle mini p) []
              (fun _ => 0) (fun _ => false)).2
        else searchFirstPass bundle mini p := rfl
  by_cases hfl : (searchFirstPass bundle mini p).length < p.limit.getD 12
  · obtain ⟨bf, hbf, hbfsub⟩ := backfillPass_structure (p.limit.getD 12)
      (searchOut bundle mini p) (searchFirstPass bundle mini p)
      (pickFirstPass (p.limit.getD 12) (searchOut bundle mini p) []
        (fun _ => 0) (fun _ => false)).2
    have hr : searchDocs bundle mini p = searchFirstPass bundle mini p ++ bf := by
      rw [hsd, if_pos hfl, hbf]
    refine ⟨?_, hfp_sorted, hfp_cap, bf, hr, List.Pairwise.sublist hbfsub hsort, ?_⟩
    · rw [hsd, if_pos hfl]
      exact backfillPass_length _ _ _ _ hfl
    · intro hbfnil
      have : searchDocs bundle mini p = searchFirstPass bundle mini p := by
        rw [hr, hbfnil, List.append_nil]
      rw [this]
      exact ⟨hfp_sorted, hfp_cap⟩
  · have hr : searchDocs bundle mini p = searchFirstPass bundle mini p := by
      rw [hsd, if_neg hfl]
    refine ⟨by rw [hr]; exact hfp_len, hfp_sorted, hfp_cap, [], by rw [hr, List.append_nil],
      List.Pairwise.nil, ?_⟩
    intro _
    rw [hr]
    exact ⟨hfp_sorted, hfp_cap⟩

/-- C1 witness: the amended theorem at the counterexample input (limit 6):
the output has length 6, the first pass [10, 9, 8, 7, 1] is sorted and
capped, the backfill segment [6] follows it. -/
theorem searchDocs_shape_witness :
    (searchDocs c1Bundle c1Mini c1Params).length ≤ 6
    ∧ SortedByScoreDesc (searchFirstPass c1Bundle c1Mini c1Params) := by
  have h := searchDocs_shape c1Bundle c1Mini c1Params (by norm_num [c1Params])
  exact ⟨by simpa [c1Params] using h.1, h.2.1⟩

/-! ## C10 — no duplicate chunk ids in the outputs -/

theorem addResult_keys_nodup (m : List (Str × ℚ)) (id : Str) (s : ℚ)
    (h : (m.map Prod.fst).Nodup) : ((addResult m id s).map Prod.fst).Nodup := by
  unfold addResult
  by_cases hin : m.any (fun p => p.1 = id) = true
  · rw [if_pos hin]
    have hmap : (m.map (fun p => if p.1 = id then (p.1, p.2 + s) else p)).map Prod.fst
        = m.map Prod.fst := by
      rw [List.map_map]
      apply List.map_congr_left
      intro p _
      by_cases hp : p.1 = id
      · simp [hp]
      · simp [hp]
    rw [hmap]
    exact h
  · rw [if_neg hin]
    have hnot : id ∉ m.map Prod.fst := by
      intro hc
      obtain ⟨p, hp, hpe⟩ := List.mem_map.mp hc
      apply hin
      exact List.any_eq_true.mpr ⟨p, hp, by simp [hpe]⟩
    simp only [List.map_append, List.map_cons, List.map_nil]
    rw [List.nodup_append]
    refine ⟨h, List.nodup_singleton _, ?_⟩
    intro a ha hb
    rw [List.mem_singleton] at hb
    subst hb
    exact hnot ha

theorem addResults_keys_nodup (hits : List SearchHit) : ∀ (m : List (Str × ℚ)) (w : ℚ),
    (m.map Prod.fst).Nodup → ((addResults m hits w).map Prod.fst).Nodup := by
  induction hits with
  | nil => intro m w h; exact h
  | cons x rest ih =>
    intro m w h
    exact ih _ _ (addResult_keys_nodup m x.id (x.score * w) h)

theorem secondarySteps_keys_nodup (mini : Str → List SearchHit) (terms : List Str) :
    ∀ (m : List (Str × ℚ)), (m.map Prod.fst).Nodup →
    ((terms.foldl (secondaryStep mini) m).map Prod.fst).Nodup := by
  induction terms with
  | nil => intro m h; exact h
  | cons t rest ih =>
    intro m h
    apply ih
    unfold secondaryStep
    by_cases h3 : (strTrim t).length < 3
    · rwa [if_pos h3]
    · rw [if_neg h3]
      by_cases hd : isAllDigits (strTrim t) = true
      · rwa [if_pos hd]
      · rw [if_neg hd]
        exact addResults_keys_nodup _ _ _ h

theorem chunksById_eq (cs : List Chunk) (cid : Str) (c : Chunk)
    (h : chunksById cs cid = some c) : c.chunkId = cid := by
  have := List.find?_some h
  simpa using this

theorem resolveCandidate_chunkId (bundle : IndexBundle) (yearOpt : Option Str)
    (kindAllow : Option (List DocKind)) (pdfAllow : Option (List Str))
    (terms : List Str) (r : Str × ℚ) (x : RetrievedChunk)
    (h : resolveCandidate bundle yearOpt kindAllow pdfAllow terms r = some x) :
    x.chunkId = r.1 := by
  unfold resolveCandidate at h
  cases hcb : chunksById bundle.chunks r.1 with
  | none => rw [hcb] at h; cases h
  | some chunk =>
    simp only [hcb] at h
    split at h
    · cases h
    · split at h
      · cases h
      · split at h
        · cases h
        · split at h
          · cases h
          · cases h
            exact chunksById_eq _ _ _ hcb

theorem buildOut_ids_sublist (bundle : IndexBundle) (yearOpt : Option Str)
    (kindAllow : Option (List DocKind)) (pdfAllow : Option (List Str))
    (terms : List Str) : ∀ (rs : List (Str × ℚ)),
    (idsOf (buildOut bundle yearOpt kindAllow pdfAllow terms rs)).Sublist
      (rs.map Prod.fst) := by
  intro rs
  induction rs with
  | nil => exact List.nil_sublist _
  | cons r rest ih =>
    unfold buildOut at ih ⊢
    rw [List.filterMap_cons]
    cases hr : resolveCandidate bundle yearOpt kindAllow pdfAllow terms r with
    | none =>
      exact ih.cons _
    | some x =>
      simp only [idsOf, List.map_cons]
      rw [resolveCandidate_chunkId _ _ _ _ _ _ _ hr]
      exact ih.cons₂ _

theorem searchOut_ids_nodup (bundle : IndexBundle) (mini : Str → List SearchHit)
    (p : SearchParams) : (idsOf (searchOut bundle mini p)).Nodup := by
  unfold searchOut
  have h0 : ((addResults [] ((mini (strTrim p.query)).take 250) 1).map Prod.fst).Nodup :=
    addResults_keys_nodup _ _ _ (by simp)
  have h1 := secondarySteps_keys_nodup mini
    (uniqFirst ((p.extraTerms.getD []) ++ extractTerms (strTrim p.query))) _ h0
  have h2 : (((sortByKeyDesc Prod.snd
      ((uniqFirst ((p.extraTerms.getD []) ++ extractTerms (strTrim p.query))).foldl
        (secondaryStep mini)
        (addResults [] ((mini (strTrim p.query)).take 250) 1))).take 250).map
          Prod.fst).Nodup := by
    apply List.Nodup.sublist ((List.take_sublist _ _).map Prod.fst)
    exact ((perm_sortByKeyDesc Prod.snd _).map Prod.fst).nodup_iff.mpr h1
  have h3 := (buildOut_ids_sublist bundle (p.year.map strTrim) p.kinds
    (match p.pdfFileNameAllow with
     | some l => if l.isEmpty then none else some (l.map strLower)
     | none => none)
    (uniqFirst ((p.extraTerms.getD []) ++ extractTerms (strTrim p.query)))
    ((sortByKeyDesc Prod.snd
      ((uniqFirst ((p.extraTerms.getD []) ++ extractTerms (strTrim p.query))).foldl
        (secondaryStep mini)
        (addResults [] ((mini (strTrim p.query)).take 250) 1))).take 250)).nodup h2
  exact ((perm_sortByKeyDesc RetrievedChunk.score _).map RetrievedChunk.chunkId).nodup_iff.mpr h3

theorem backfillPass_ids_nodup (limit : Nat) : ∀ (l acc : List RetrievedChunk)
    (ids : Str → Bool),
    (idsOf acc).Nodup → (∀ id, ids id = true ↔ id ∈ idsOf acc) → (idsOf l).Nodup →
    (idsOf (backfillPass limit l acc ids)).Nodup := by
  intro l
  induction l with
  | nil => intro acc ids ha _ _; exact ha
  | cons item rest ih =>
    intro acc ids ha hinv hl
    have hlrest : (idsOf rest).Nodup := by
      simp only [idsOf, List.map_cons] at hl
      exact hl.of_cons
    simp only [backfillPass]
    by_cases hin : ids item.chunkId = true
    · rw [if_pos hin]
      exact ih acc ids ha hinv hlrest
    · rw [if_neg hin]
      have hnotin : item.chunkId ∉ idsOf acc := fun hc => hin ((hinv _).mpr hc)
      have ha' : (idsOf (acc ++ [item])).Nodup := by
        simp only [idsOf, List.map_append, List.map_cons, List.map_nil]
        rw [List.nodup_append]
        refine ⟨ha, List.nodup_singleton _, ?_⟩
        intro a hac hb
        rw [List.mem_singleton] at hb
        subst hb
        exact hnotin hac
      by_cases hl2 : limit ≤ (acc ++ [item]).length
      · rw [if_pos hl2]
        exact ha'
      · rw [if_neg hl2]
        apply ih _ _ ha' _ hlrest
        intro j
        rw [Bool.or_eq_true, hinv j]
        simp [idsOf]

theorem searchDocs_ids_nodup (bundle : IndexBundle) (mini : Str → List SearchHit)
    (p : SearchParams) : (idsOf (searchDocs bundle mini p)).Nodup := by
  have hout := searchOut_ids_nodup bundle mini p
  obtain ⟨s, hs, hsub⟩ := pickFirstPass_structure (p.limit.getD 12)
    (searchOut bundle mini p) [] (fun _ => 0) (fun _ => false)
  have hfp_nodup : (idsOf (pickFirstPass (p.limit.getD 12) (searchOut bundle mini p) []
      (fun _ => 0) (fun _ => false)).1).Nodup := by
    apply List.Nodup.sublist _ hout
    rw [hs]
    simpa [idsOf] using hsub.map RetrievedChunk.chunkId
  have hids := pickFirstPass_ids (p.limit.getD 12) (searchOut bundle mini p) []
    (fun _ => 0) (fun _ => false) (by simp [idsOf])
  have hsd : searchDocs bundle mini p
      = if (pickFirstPass (p.limit.getD 12) (searchOut bundle mini p) []
            (fun _ => 0) (fun _ => false)).1.length < p.limit.getD 12 then
          backfillPass (p.limit.getD 12) (searchOut bundle mini p)
            (pickFirstPass (p.limit.getD 12) (searchOut bundle mini p) []
              (fun _ => 0) (fun _ => false)).1
            (pickFirstPass (p.limit.getD 12) (searchOut bundle mini p) []
              (fun _ => 0) (fun _ => false)).2
        else (pickFirstPass (p.limit.getD 12) (searchOut bundle mini p) []
          (fun _ => 0) (fun _ => false)).1 := rfl
  rw [hsd]
  by_cases hfl : (pickFirstPass (p.limit.getD 12) (searchOut bundle mini p) []
      (fun _ => 0) (fun _ => false)).1.length < p.limit.getD 12
  · rw [if_pos hfl]
    exact backfillPass_ids_nodup _ _ _ _ hfp_nodup hids hout
  · rw [if_neg hfl]
    exact hfp_nodup

/-! ## Expansion-state invariants (shared by the C2 and C10 analyses):
`existingIds` tracks exactly the input ids plus the extras' ids, the extras
carry pairwise distinct ids, and no extra duplicates an input id. -/

theorem extras_push_inv (retrieved : List RetrievedChunk) (exIds : Str → Bool)
    (extras : List RetrievedChunk) (e : RetrievedChunk)
    (h1 : ∀ id, exIds id = true ↔ (id ∈ idsOf retrieved ∨ id ∈ idsOf extras))
    (h2 : (idsOf extras).Nodup)
    (h3 : ∀ id ∈ idsOf extras, id ∉ idsOf retrieved)
    (hnot : ¬ exIds e.chunkId = true) :
    (∀ id, (exIds id || id = e.chunkId) = true
        ↔ (id ∈ idsOf retrieved ∨ id ∈ idsOf (extras ++ [e])))
    ∧ (idsOf (extras ++ [e])).Nodup
    ∧ (∀ id ∈ idsOf (extras ++ [e]), id ∉ idsOf retrieved) := by
  have hor : e.chunkId ∉ idsOf retrieved ∧ e.chunkId ∉ idsOf extras := by
    constructor
    · intro hc
      exact hnot ((h1 _).mpr (Or.inl hc))
    · intro hc
      exact hnot ((h1 _).mpr (Or.inr hc))
  refine ⟨?_, ?_, ?_⟩
  · intro id
    rw [Bool.or_eq_true, h1 id]
    simp only [idsOf, List.map_append, List.map_cons, List.map_nil, List.mem_append,
      List.mem_singleton, decide_eq_true_eq]
    tauto
  · simp only [idsOf, List.map_append, List.map_cons, List.map_nil]
    rw [List.nodup_append]
    refine ⟨h2, List.nodup_singleton _, ?_⟩
    intro a hac hb
    rw [List.mem_singleton] at hb
    subst hb
    exact hor.2 hac
  · intro id hid
    simp only [idsOf, List.map_append, List.map_cons, List.map_nil, List.mem_append,
      List.mem_singleton] at hid
    rcases hid with hid | hid
    · exact h3 id hid
    · subst hid
      exact hor.1

theorem expandWalk_inv (bundle : IndexBundle) (mPH mET mEC : Nat)
    (base : RetrievedChunk) (terms : List Str) (retrieved : List RetrievedChunk) :
    ∀ (cl : List Chunk) (st : ExtrasState) (added chars : Nat),
    (∀ id, st.existingIds id = true ↔ (id ∈ idsOf retrieved ∨ id ∈ idsOf st.extras)) →
    (idsOf st.extras).Nodup →
    (∀ id ∈ idsOf st.extras, id ∉ idsOf retrieved) →
    (∀ id, (expandWalk bundle mPH mET mEC base terms cl st added chars).existingIds id = true
        ↔ (id ∈ idsOf retrieved
            ∨ id ∈ idsOf (expandWalk bundle mPH mET mEC base terms cl st added chars).extras))
      ∧ (idsOf (expandWalk bundle mPH mET mEC base terms cl st added chars).extras).Nodup
      ∧ (∀ id ∈ idsOf (expandWalk bundle mPH mET mEC base terms cl st added chars).extras,
          id ∉ idsOf retrieved) := by
  intro cl
  induction cl with
  | nil => intro st added chars h1 h2 h3; exact ⟨h1, h2, h3⟩
  | cons c rest ih =>
    intro st added chars h1 h2 h3
    simp only [expandWalk]
    by_cases hex : st.existingIds c.chunkId = true
    · rw [if_pos hex]
      exact ih st added chars h1 h2 h3
    · rw [if_neg hex]
      by_cases hemp : (strTrim c.text).isEmpty = true
      · rw [if_pos hemp]
        exact ih st added chars h1 h2 h3
      · rw [if_neg hemp]
        by_cases hcap : (mPH ≤ added || mET ≤ st.extraCount) = true
        · rw [if_pos hcap]
          exact ⟨h1, h2, h3⟩
        · rw [if_neg hcap]
          obtain ⟨g1, g2, g3⟩ := extras_push_inv retrieved st.existingIds st.extras
            { chunk := c, score := qmax (1 / 10) (base.score * (7 / 10))
              excerpt := makeExcerpt (strTrim c.text) terms 900
              externalUrl :=
                match byFileMeta bundle.files c.fileId with
                | some fm => buildExternalUrl fm c bundle.files
                | none => none }
            h1 h2 h3 hex
          split
          · exact ⟨g1, g2, g3⟩
          · split
            · exact ⟨g1, g2, g3⟩
            · exact ih _ _ _ g1 g2 g3

theorem collectExtras_inv (bundle : IndexBundle) (mPH mET mEC : Nat)
    (retrieved : List RetrievedChunk) :
    ∀ (rl : List RetrievedChunk) (st : ExtrasState),
    (∀ id, st.existingIds id = true ↔ (id ∈ idsOf retrieved ∨ id ∈ idsOf st.extras)) →
    (idsOf st.extras).Nodup →
    (∀ id ∈ idsOf st.extras, id ∉ idsOf retrieved) →
    (∀ id, (collectExtras bundle mPH mET mEC rl st).existingIds id = true
        ↔ (id ∈ idsOf retrieved
            ∨ id ∈ idsOf (collectExtras bundle mPH mET mEC rl st).extras))
      ∧ (idsOf (collectExtras bundle mPH mET mEC rl st).extras).Nodup
      ∧ (∀ id ∈ idsOf (collectExtras bundle mPH mET mEC rl st).extras,
          id ∉ idsOf retrieved) := by
  intro rl
  induction rl with
  | nil => intro st h1 h2 h3; exact ⟨h1, h2, h3⟩
  | cons base rest ih =>
    intro st h1 h2 h3
    simp only [collectExtras]
    by_cases hh : (!isLikelyHeader base.text) = true
    · rw [if_pos hh]
      exact ih st h1 h2 h3
    · rw [if_neg hh]
      by_cases h260 : 260 < (strTrim base.text).length
      · rw [if_pos h260]
        exact ih st h1 h2 h3
      · rw [if_neg h260]
        by_cases hcap : mET ≤ st.extraCount
        · rw [if_pos hcap]
          exact ⟨h1, h2, h3⟩
        · rw [if_neg hcap]
          cases hidx : (byFileSorted bundle base.fileId).findIdx?
              (fun c => c.chunkId = base.chunkId) with
          | none =>
            exact ih _ h1 h2 h3
          | some idx =>
            obtain ⟨g1, g2, g3⟩ := expandWalk_inv bundle mPH mET mEC base
              (extractTerms base.text) retrieved
              ((byFileSorted bundle base.fileId).drop (idx + 1))
              { st with pinnedIds := fun id => st.pinnedIds id || id = base.chunkId }
              0 0 h1 h2 h3
            exact ih _ g1 g2 g3

theorem expandState_inv (bundle : IndexBundle) (mPH mET mEC : Nat)
    (retrieved : List RetrievedChunk) :
    (∀ id, (expandState bundle mPH mET mEC retrieved).existingIds id = true
        ↔ (id ∈ idsOf retrieved
            ∨ id ∈ idsOf (expandState bundle mPH mET mEC retrieved).extras))
      ∧ (idsOf (expandState bundle mPH mET mEC retrieved).extras).Nodup
      ∧ (∀ id ∈ idsOf (expandState bundle mPH mET mEC retrieved).extras,
          id ∉ idsOf retrieved) := by
  apply collectExtras_inv
  · intro id
    simp [initialExpandState, idsOf, List.any_eq_true, List.mem_map]
  · exact List.nodup_nil
  · intro id hid
    cases hid

theorem expand_merged_nodup (bundle : IndexBundle) (mPH mET mEC : Nat)
    (retrieved : List RetrievedChunk) (hnd : (idsOf retrieved).Nodup) :
    (idsOf (retrieved ++ (expandState bundle mPH mET mEC retrieved).extras)).Nodup := by
  obtain ⟨_, h2, h3⟩ := expandState_inv bundle mPH mET mEC retrieved
  simp only [idsOf, List.map_append]
  rw [List.nodup_append]
  refine ⟨hnd, h2, ?_⟩
  intro a ha hb
  exact h3 a hb ha

theorem foldl_mapUpsert_eq : ∀ (l acc : List RetrievedChunk),
    (idsOf (acc ++ l)).Nodup → l.foldl mapUpsert acc = acc ++ l := by
  intro l
  induction l with
  | nil => intro acc _; simp
  | cons x rest ih =>
    intro acc h
    have hx : x.chunkId ∉ idsOf acc := by
      intro hc
      simp only [idsOf, List.map_append, List.map_cons] at h
      rw [List.nodup_append] at h
      exact h.2.2 hc (List.mem_cons_self _ _)
    have hup : mapUpsert acc x = acc ++ [x] := by
      unfold mapUpsert
      rw [if_neg]
      intro hc
      obtain ⟨e, he, hee⟩ := List.any_eq_true.mp hc
      apply hx
      rw [decide_eq_true_eq] at hee
      exact hee ▸ List.mem_map_of_mem RetrievedChunk.chunkId he
    show rest.foldl mapUpsert (mapUpsert acc x) = acc ++ x :: rest
    rw [hup, ih (acc ++ [x]) (by simpa [List.append_assoc] using h)]
    simp

theorem mapInsertAll_eq_self (l : List RetrievedChunk) (h : (idsOf l).Nodup) :
    mapInsertAll l = l := by
  have := foldl_mapUpsert_eq l [] (by simpa using h)
  simpa [mapInsertAll] using this

theorem evictLoop_sublist : ∀ (cands : List RetrievedChunk) (toDrop : Nat)
    (cur : List RetrievedChunk), (evictLoop cands toDrop cur).Sublist cur := by
  intro cands
  induction cands with
  | nil => intro toDrop cur; exact List.Sublist.refl _
  | cons c rest ih =>
    intro toDrop cur
    simp only [evictLoop]
    by_cases h0 : toDrop = 0
    · rw [if_pos h0]
    · rw [if_neg h0]
      exact (ih _ _).trans (List.filter_sublist _)

theorem evictLoop_pinned_kept (pin : Str → Bool) : ∀ (cands : List RetrievedChunk)
    (toDrop : Nat) (cur : List RetrievedChunk),
    (∀ c ∈ cands, pin c.chunkId = false) →
    ∀ x ∈ cur, pin x.chunkId = true → x ∈ evictLoop cands toDrop cur := by
  intro cands
  induction cands with
  | nil => intro toDrop cur _ x hx _; exact hx
  | cons c rest ih =>
    intro toDrop cur hpin x hx hpx
    simp only [evictLoop]
    by_cases h0 : toDrop = 0
    · rw [if_pos h0]
      exact hx
    · rw [if_neg h0]
      apply ih _ _ (fun d hd => hpin d (List.mem_cons_of_mem _ hd)) x _ hpx
      apply List.mem_filter.mpr
      refine ⟨hx, ?_⟩
      simp only [Bool.not_eq_true', decide_eq_false_iff_not]
      intro he
      have := hpin c (List.mem_cons_self _ _)
      rw [← he, hpx] at this
      cases this

theorem filter_ne_length (id : Str) : ∀ (cur : List RetrievedChunk),
    (idsOf cur).Nodup → id ∈ idsOf cur →
    (cur.filter (fun m => !(m.chunkId = id))).length = cur.length - 1 := by
  intro cur
  induction cur with
  | nil => intro _ h; cases h
  | cons y rest ih =>
    intro hnd hmem
    simp only [idsOf, List.map_cons] at hnd hmem
    rw [List.nodup_cons] at hnd
    rw [List.filter_cons]
    by_cases hy : y.chunkId = id
    · have hid : ¬ id ∈ idsOf rest := by
        rw [← hy]
        exact hnd.1
      have hall : rest.filter (fun m => !(m.chunkId = id)) = rest := by
        apply List.filter_eq_self.mpr
        intro a ha
        simp only [Bool.not_eq_true', decide_eq_false_iff_not]
        intro he
        exact hid (he ▸ List.mem_map_of_mem RetrievedChunk.chunkId ha)
      have hcond : (!decide (y.chunkId = id)) = false := by simp [hy]
      simp only [hcond, Bool.false_eq_true, if_false]
      rw [hall]
      simp
    · have hmem' : id ∈ idsOf rest := by
        rcases List.mem_cons.mp hmem with h | h
        · exact absurd h.symm hy
        · exact h
      have hlen : 1 ≤ (idsOf rest).length := by
        cases hrest : idsOf rest with
        | nil => rw [hrest] at hmem'; cases hmem'
        | cons a t => simp
      have hcond : (!decide (y.chunkId = id)) = true := by simp [hy]
      simp only [hcond, if_true, List.length_cons]
      rw [ih hnd.2 hmem']
      simp only [idsOf, List.length_map] at hlen
      omega

theorem mem_idsOf_filter_ne (id id' : Str) (cur : List RetrievedChunk)
    (hne : id' ≠ id) (h : id' ∈ idsOf cur) :
    id' ∈ idsOf (cur.filter (fun m => !(m.chunkId = id))) := by
  obtain ⟨x, hx, hxe⟩ := List.mem_map.mp h
  subst hxe
  apply List.mem_map_of_mem
  apply List.mem_filter.mpr
  refine ⟨hx, ?_⟩
  simp only [Bool.not_eq_true', decide_eq_false_iff_not]
  exact hne

theorem evictLoop_length : ∀ (cands : List RetrievedChunk) (toDrop : Nat)
    (cur : List RetrievedChunk),
    (idsOf cur).Nodup → (idsOf cands).Nodup →
    (∀ c ∈ cands, c.chunkId ∈ idsOf cur) →
    (evictLoop cands toDrop cur).length = cur.length - min toDrop cands.length := by
  intro cands
  induction cands with
  | nil => intro toDrop cur _ _ _; simp [evictLoop]
  | cons c rest ih =>
    intro toDrop cur hc hnd hmem
    simp only [evictLoop]
    by_cases h0 : toDrop = 0
    · rw [if_pos h0]
      simp [h0]
    · rw [if_neg h0]
      have hcin : c.chunkId ∈ idsOf cur := hmem c (List.mem_cons_self _ _)
      have hflen := filter_ne_length c.chunkId cur hc hcin
      have hfnd : (idsOf (cur.filter (fun m => !(m.chunkId = c.chunkId)))).Nodup := by
        apply List.Nodup.sublist _ hc
        exact (List.filter_sublist _).map _
      have hndrest : (idsOf rest).Nodup := by
        simp only [idsOf, List.map_cons] at hnd
        exact hnd.of_cons
      have hcnotin : c.chunkId ∉ idsOf rest := by
        simp only [idsOf, List.map_cons] at hnd
        exact (List.nodup_cons.mp hnd).1
      have hmem' : ∀ d ∈ rest,
          d.chunkId ∈ idsOf (cur.filter (fun m => !(m.chunkId = c.chunkId))) := by
        intro d hd
        apply mem_idsOf_filter_ne
        · intro he
          exact hcnotin (he ▸ List.mem_map_of_mem RetrievedChunk.chunkId hd)
        · exact hmem d (List.mem_cons_of_mem _ hd)
      rw [ih (toDrop - 1) _ hfnd hndrest hmem', hflen]
      have hcur1 : 1 ≤ cur.length := by
        have : 1 ≤ (idsOf cur).length := by
          cases hcur : idsOf cur with
          | nil => rw [hcur] at hcin; cases hcin
          | cons a t => simp
        simpa [idsOf] using this
      simp only [List.length_cons]
      omega

theorem countP_split (l : List RetrievedChunk) (p : RetrievedChunk → Bool) :
    l.countP p + (l.filter (fun x => !(p x))).length = l.length := by
  induction l with
  | nil => rfl
  | cons a t ih =>
    by_cases hp : p a = true
    · simp [List.countP_cons, List.filter_cons, hp]
      omega
    · rw [Bool.not_eq_true] at hp
      simp [List.countP_cons, List.filter_cons, hp]
      omega

/-! ## C2 — expansion budget and pinning -/

/-- C2: counterexample.  On an input of three plain (non-header) chunks with
`maxTotal = 2`, no extras are produced and `expandHeaderContext` returns the
input unchanged — 3 chunks, exceeding `maxTotal`.  `expand` therefore does
NOT always return at most `maxTotal` chunks. -/
theorem c2_counterexample :
    expandHeaderContext emptyBundle c2Input 2 3 8 5000 = c2Input
    ∧ 2 < (expandHeaderContext emptyBundle c2Input 2 3 8 5000).length := by
  have h : expandHeaderContext emptyBundle c2Input 2 3 8 5000 = c2Input := by
    with_unfolding_all decide
  refine ⟨h, ?_⟩
  rw [h]
  with_unfolding_all decide

/-- C2 (amended): pinned chunks (headers and the extras added under them) are
never evicted; when no extras were produced the input is returned unchanged
(whatever its length); when extras were produced the result holds at most
`max maxTotal (number of pinned entries)` chunks — the `maxTotal` bound holds
except that pinned entries are never evicted even over budget (for inputs
with pairwise distinct chunk ids). -/
theorem expand_budget (bundle : IndexBundle) (retrieved : List RetrievedChunk)
    (mT mPH mET mEC : Nat) (hnd : (idsOf retrieved).Nodup) :
    ((expandState bundle mPH mET mEC retrieved).extras = [] →
      expandHeaderContext bundle retrieved mT mPH mET mEC = retrieved)
    ∧ (∀ x ∈ retrieved ++ (expandState bundle mPH mET mEC retrieved).extras,
        (expandState bundle mPH mET mEC retrieved).pinnedIds x.chunkId = true →
        x ∈ expandHeaderContext bundle retrieved mT mPH mET mEC)
    ∧ ((expandState bundle mPH mET mEC retrieved).extras ≠ [] →
        (expandHeaderContext bundle retrieved mT mPH mET mEC).length
          ≤ max mT ((retrieved ++ (expandState bundle mPH mET mEC retrieved).extras).countP
              (fun m => (expandState bundle mPH mET mEC retrieved).pinnedIds m.chunkId))) := by
  have hmnd : (idsOf (retrieved ++ (expandState bundle mPH mET mEC retrieved).extras)).Nodup :=
    expand_merged_nodup bundle mPH mET mEC retrieved hnd
  have hr : expandHeaderContext bundle retrieved mT mPH mET mEC
      = if retrieved.isEmpty then retrieved
        else if (expandState bundle mPH mET mEC retrieved).extras.isEmpty then retrieved
        else if (retrieved ++ (expandState bundle mPH mET mEC retrieved).extras).length ≤ mT
          then retrieved ++ (expandState bundle mPH mET mEC retrieved).extras
        else
          evictLoop
            (sortByKeyAsc RetrievedChunk.score
              ((retrieved ++ (expandState bundle mPH mET mEC retrieved).extras).filter
                (fun m => !((expandState bundle mPH mET mEC retrieved).pinnedIds m.chunkId))))
            ((retrieved ++ (expandState bundle mPH mET mEC retrieved).extras).length - mT)
            (mapInsertAll (retrieved ++ (expandState bundle mPH mET mEC retrieved).extras)) :=
    rfl
  by_cases hE : retrieved.isEmpty = true
  · have hret : retrieved = [] := by
      cases retrieved with
      | nil => rfl
      | cons a t => cases hE
    subst hret
    have hex : (expandState bundle mPH mET mEC ([] : List RetrievedChunk)).extras = [] := rfl
    refine ⟨fun _ => by rw [hr, if_pos hE], ?_, fun hne => absurd hex hne⟩
    intro x hx _
    rw [hex] at hx
    simp at hx
  · rw [Bool.not_eq_true] at hE
    by_cases hXe : (expandState bundle mPH mET mEC retrieved).extras.isEmpty = true
    · have hex : (expandState bundle mPH mET mEC retrieved).extras = [] := by
        cases hx : (expandState bundle mPH mET mEC retrieved).extras with
        | nil => rfl
        | cons a t => rw [hx] at hXe; cases hXe
      have hrr : expandHeaderContext bundle retrieved mT mPH mET mEC = retrieved := by
        rw [hr, hE]
        simp only [Bool.false_eq_true, if_false]
        rw [if_pos hXe]
      refine ⟨fun _ => hrr, ?_, fun hne => absurd hex hne⟩
      intro x hx _
      rw [hrr]
      rw [hex, List.append_nil] at hx
      exact hx
    · have hex : (expandState bundle mPH mET mEC retrieved).extras ≠ [] := by
        intro hc
        rw [hc] at hXe
        exact hXe rfl
      have hne1 : ∀ P : Prop, ((expandState bundle mPH mET mEC retrieved).extras = [] → P) :=
        fun P hc => absurd hc hex
      by_cases hM : (retrieved ++ (expandState bundle mPH mET mEC retrieved).extras).length ≤ mT
      · have hrr : expandHeaderContext bundle retrieved mT mPH mET mEC
            = retrieved ++ (expandState bundle mPH mET mEC retrieved).extras := by
          rw [hr, hE]
          simp only [Bool.false_eq_true, if_false]
          rw [if_neg hXe, if_pos hM]
        refine ⟨hne1 _, ?_, ?_⟩
        · intro x hx _
          rw [hrr]
          exact hx
        · intro _
          rw [hrr]
          exact le_trans hM (le_max_left _ _)
      · have hrr : expandHeaderContext bundle retrieved mT mPH mET mEC
            = evictLoop
                (sortByKeyAsc RetrievedChunk.score
                  ((retrieved ++ (expandState bundle mPH mET mEC retrieved).extras).filter
                    (fun m => !((expandState bundle mPH mET mEC retrieved).pinnedIds m.chunkId))))
                ((retrieved ++ (expandState bundle mPH mET mEC retrieved).extras).length - mT)
                (retrieved ++ (expandState bundle mPH mET mEC retrieved).extras) := by
          rw [hr, hE]
          simp only [Bool.false_eq_true, if_false]
          rw [if_neg hXe, if_neg hM, mapInsertAll_eq_self _ hmnd]
        have hcands_pin : ∀ c ∈ sortByKeyAsc RetrievedChunk.score
            ((retrieved ++ (expandState bundle mPH mET mEC retrieved).extras).filter
              (fun m => !((expandState bundle mPH mET mEC retrieved).pinnedIds m.chunkId))),
            (expandState bundle mPH mET mEC retrieved).pinnedIds c.chunkId = false := by
          intro c hcmem
          have hcf := (perm_sortByKeyAsc RetrievedChunk.score _).mem_iff.mp hcmem
          have := List.of_mem_filter hcf
          simpa using this
        refine ⟨hne1 _, ?_, ?_⟩
        · intro x hx hpin
          rw [hrr]
          exact evictLoop_pinned_kept _ _ _ _ hcands_pin x hx hpin
        · intro _
          rw [hrr]
          have hperm := perm_sortByKeyAsc RetrievedChunk.score
            ((retrieved ++ (expandState bundle mPH mET mEC retrieved).extras).filter
              (fun m => !((expandState bundle mPH mET mEC retrieved).pinnedIds m.chunkId)))
          have hcnd : (idsOf (sortByKeyAsc RetrievedChunk.score
              ((retrieved ++ (expandState bundle mPH mET mEC retrieved).extras).filter
                (fun m => !((expandState bundle mPH mET mEC retrieved).pinnedIds m.chunkId))))).Nodup := by
            apply (hperm.map RetrievedChunk.chunkId).nodup_iff.mpr
            apply List.Nodup.sublist _ hmnd
            exact (List.filter_sublist _).map _
          have hcmem : ∀ c ∈ sortByKeyAsc RetrievedChunk.score
              ((retrieved ++ (expandState bundle mPH mET mEC retrieved).extras).filter
                (fun m => !((expandState bundle mPH mET mEC retrieved).pinnedIds m.chunkId))),
              c.chunkId ∈ idsOf (retrieved ++ (expandState bundle mPH mET mEC retrieved).extras) := by
            intro c hcm
            have hcf := hperm.mem_iff.mp hcm
            exact List.mem_map_of_mem RetrievedChunk.chunkId (List.mem_of_mem_filter hcf)
          rw [evictLoop_length _ _ _ hmnd hcnd hcmem]
          have hlen := hperm.length_eq
          have hsplit := countP_split
            (retrieved ++ (expandState bundle mPH mET mEC retrieved).extras)
            (fun m => (expandState bundle mPH mET mEC retrieved).pinnedIds m.chunkId)
          rw [hlen]
          omega

/-- C2 witness: the amended theorem's no-extras conjunct at the concrete
3-chunk non-header input. -/
theorem expand_budget_witness :
    expandHeaderContext emptyBundle c2Input 2 3 8 5000 = c2Input :=
  (expand_budget emptyBundle c2Input 2 3 8 5000 (by with_unfolding_all decide)).1
    (by with_unfolding_all decide)

/-! ## C10 claim theorems -/

/-- C10: counterexample.  On an input that repeats the same (non-header)
chunk, no extras are produced and `expandHeaderContext` returns the input
unchanged — including its duplicate chunk id.  The claimed no-duplicates
invariant does not hold for every input of `expand`. -/
theorem c10_counterexample :
    expandHeaderContext emptyBundle [c10Dup, c10Dup] 28 3 8 5000 = [c10Dup, c10Dup]
    ∧ ¬ (idsOf (expandHeaderContext emptyBundle [c10Dup, c10Dup] 28 3 8 5000)).Nodup := by
  have h : expandHeaderContext emptyBundle [c10Dup, c10Dup] 28 3 8 5000
      = [c10Dup, c10Dup] := by
    with_unfolding_all decide
  refine ⟨h, ?_⟩
  rw [h]
  with_unfolding_all decide

/-- C10 (amended): `searchDocs` output never contains two entries with the
same chunk id, and `expandHeaderContext` preserves this whenever its input
has pairwise distinct chunk ids (as `searchDocs` outputs do); on inputs that
already repeat an id, the no-extras path returns the duplicates unchanged. -/
theorem search_expand_nodup (bundle : IndexBundle) (mini : Str → List SearchHit)
    (p : SearchParams) (bundle2 : IndexBundle) (retrieved : List RetrievedChunk)
    (mT mPH mET mEC : Nat) (hnd : (idsOf retrieved).Nodup) :
    (idsOf (searchDocs bundle mini p)).Nodup
    ∧ (idsOf (expandHeaderContext bundle2 retrieved mT mPH mET mEC)).Nodup := by
  refine ⟨searchDocs_ids_nodup bundle mini p, ?_⟩
  have hmnd : (idsOf (retrieved ++ (expandState bundle2 mPH mET mEC retrieved).extras)).Nodup :=
    expand_merged_nodup bundle2 mPH mET mEC retrieved hnd
  have hr : expandHeaderContext bundle2 retrieved mT mPH mET mEC
      = if retrieved.isEmpty then retrieved
        else if (expandState bundle2 mPH mET mEC retrieved).extras.isEmpty then retrieved
        else if (retrieved ++ (expandState bundle2 mPH mET mEC retrieved).extras).length ≤ mT
          then retrieved ++ (expandState bundle2 mPH mET mEC retrieved).extras
        else
          evictLoop
            (sortByKeyAsc RetrievedChunk.score
              ((retrieved ++ (expandState bundle2 mPH mET mEC retrieved).extras).filter
                (fun m => !((expandState bundle2 mPH mET mEC retrieved).pinnedIds m.chunkId))))
            ((retrieved ++ (expandState bundle2 mPH mET mEC retrieved).extras).length - mT)
            (mapInsertAll (retrieved ++ (expandState bundle2 mPH mET mEC retrieved).extras)) :=
    rfl
  rw [hr]
  by_cases hE : retrieved.isEmpty = true
  · rw [if_pos hE]
    exact hnd
  · rw [Bool.not_eq_true] at hE
    rw [hE]
    simp only [Bool.false_eq_true, if_false]
    by_cases hXe : (expandState bundle2 mPH mET mEC retrieved).extras.isEmpty = true
    · rw [if_pos hXe]
      exact hnd
    · rw [if_neg hXe]
      by_cases hM : (retrieved ++ (expandState bundle2 mPH mET mEC retrieved).extras).length ≤ mT
      · rw [if_pos hM]
        exact hmnd
      · rw [if_neg hM, mapInsertAll_eq_self _ hmnd]
        apply List.Nodup.sublist _ hmnd
        exact (evictLoop_sublist _ _ _).map _

/-- C10 witness: the amended theorem at an empty corpus with an empty search
oracle and a duplicate-free one-chunk expansion input. -/
theorem search_expand_nodup_witness :
    (idsOf (searchDocs emptyBundle (fun _ => [])
        { query := [], year := none, limit := none, extraTerms := none,
          pdfFileNameAllow := none, kinds := none })).Nodup
    ∧ (idsOf (expandHeaderContext emptyBundle [c10Dup] 28 3 8 5000)).Nodup :=
  search_expand_nodup emptyBundle (fun _ => [])
    { query := [], year := none, limit := none, extraTerms := none,
      pdfFileNameAllow := none, kinds := none }
    emptyBundle [c10Dup] 28 3 8 5000 (by with_unfolding_all decide)

end FsQuizTool















